import Mathlib

/-!
Shallow embedding of the scribear transcription service core
(`src/transcription_service/src`), covering:

* `NPCircularBuffer` (`shared/utils/np_circular_buffer/np_circular_buffer.py`)
* `LocalAgree` (`shared/utils/local_agree/local_agree.py`)
* the worker-pool dispatcher (`shared/utils/worker_pool/worker_pool.py` and
  `worker_process_manager.py`)
* the per-worker EDF scheduler and context table
  (`shared/utils/worker_pool/worker_process.py`)
* `_RollingUtilization` (`shared/utils/worker_pool/worker_process_manager.py`)
* the streaming pipeline `WhisperStreamingProviderJob.process_batch`
  (`transcription_providers/whisper_streaming_provider/whisper_streaming_job.py`)

Python floats that hold timestamps are modelled as rationals; sample counts
and nanosecond counts are integers.  Fallible operations return `Except` (a
raised exception is `.error`); operations that mutate state before raising
return the mutated state together with an error flag.
-/

deriving instance DecidableEq for Except

namespace Scribear

/-! ## Python helpers -/

/-- Python's `str.endswith(suffix)`, modelled on the character list of the
string. -/
def strEndsWith (s suffix : String) : Bool :=
  suffix.data.isSuffixOf s.data

/-- Python's `int(x)` on a rational: truncation toward zero. -/
def pyInt (q : ℚ) : ℤ :=
  if q < 0 then ⌈q⌉ else ⌊q⌋

/-- Normalized index of a Python slice endpoint `i` into a sequence of length
`size`: negative indices count from the end, and the result is clamped to
`[0, size]`. -/
def sliceIdx (size : ℕ) (i : ℤ) : ℕ :=
  (if 0 ≤ i then min i (size : ℤ) else max 0 ((size : ℤ) + i)).toNat

/-- Length of the Python slice `a[:m]` of a sequence of length `size`. -/
def sliceLen (size : ℕ) (m : ℤ) : ℕ :=
  sliceIdx size m

/-- Length of the Python slice `a[i:j]` of a sequence of length `size`. -/
def sliceRangeLen (size : ℕ) (i j : ℤ) : ℕ :=
  sliceIdx size j - sliceIdx size i

/-! ## NPCircularBuffer (`np_circular_buffer.py`)

Only the length-relevant state is modelled: `_curr_size` (which the source
can drive negative) and `_max_size`.  The numpy element copies preserve the
lengths tracked here; a numpy broadcast failure in `purge` is modelled as
`.error`. -/

structure NPCircularBuffer where
  currSize : ℤ
  maxSize : ℕ
deriving DecidableEq, Repr

/-- `NPCircularBuffer.__init__`: empty buffer of capacity `max_size`. -/
def NPCircularBuffer.init (maxSize : ℕ) : NPCircularBuffer :=
  { currSize := 0, maxSize := maxSize }

/-- `NPCircularBuffer.append` for a sequence of `n` elements.  Returns the
new buffer and the number of elements that were not appended. -/
def NPCircularBuffer.append (buf : NPCircularBuffer) (n : ℕ) :
    NPCircularBuffer × ℕ :=
  let space := (buf.maxSize : ℤ) - buf.currSize
  if (n : ℤ) ≤ space then
    ({ buf with currSize := buf.currSize + n }, 0)
  else
    ({ buf with currSize := buf.maxSize }, ((n : ℤ) - space).toNat)

/-- `NPCircularBuffer.purge(amount)`.

The source clamps `amount` to `_max_size` (not to `_curr_size`) and then
executes `self._buffer[: self._curr_size - amount] = self._buffer[amount :
self._curr_size]`.  The numpy assignment succeeds iff the source length
equals the target length or the source has length 1 (broadcast); otherwise
numpy raises, modelled as `.error`. -/
def NPCircularBuffer.purge (buf : NPCircularBuffer) (amount : ℤ) :
    Except Unit NPCircularBuffer :=
  let amount' := min (buf.maxSize : ℤ) amount
  let lhsLen := sliceLen buf.maxSize (buf.currSize - amount')
  let rhsLen := sliceRangeLen buf.maxSize amount' buf.currSize
  if rhsLen = lhsLen ∨ rhsLen = 1 then
    .ok { buf with currSize := buf.currSize - amount' }
  else
    .error ()

/-- `NPCircularBuffer.__len__`. -/
def NPCircularBuffer.len (buf : NPCircularBuffer) : ℤ :=
  buf.currSize

/-- One buffer operation: an `append` of `n` fresh samples or a `purge n`. -/
inductive BufOp where
  | append (n : ℕ)
  | purge (n : ℕ)
deriving DecidableEq, Repr

/-- Run a sequence of buffer operations (a purge failure aborts). -/
def runBufOps : NPCircularBuffer → List BufOp → Except Unit NPCircularBuffer
  | buf, [] => .ok buf
  | buf, .append n :: ops => runBufOps (buf.append n).1 ops
  | buf, .purge n :: ops => do runBufOps (← buf.purge n) ops

/-- Operation sequences in which every purge amount is at most the current
length (the pattern used by all in-repo callers). -/
inductive SafeBufOps : NPCircularBuffer → List BufOp → Prop
  | nil (buf : NPCircularBuffer) : SafeBufOps buf []
  | append (buf : NPCircularBuffer) (n : ℕ) (ops : List BufOp) :
      SafeBufOps (buf.append n).1 ops → SafeBufOps buf (.append n :: ops)
  | purge (buf : NPCircularBuffer) (n : ℕ) (ops : List BufOp) :
      (n : ℤ) ≤ buf.currSize →
      SafeBufOps { buf with currSize := buf.currSize - n } ops →
      SafeBufOps buf (.purge n :: ops)

/-! ## LocalAgree (`local_agree.py`) -/

/-- `TranscriptionSegment`: a smallest unit of text with start and end
times.  The source field `end` is spelled `endT` (`end` is reserved). -/
structure TranscriptionSegment where
  text : String
  start : ℚ
  endT : ℚ
deriving DecidableEq, Repr

/-- `TranscriptionSequence` as produced by `_segments_to_sequence` (the
`starts`/`ends` components are always populated there). -/
structure TranscriptionSequence where
  text : List String
  starts : List ℚ
  ends : List ℚ
deriving DecidableEq, Repr

/-- `_is_sentence_end`: the text ends with `"."`, `"?"` or `"!"` but not
with the whitelist `"..."`. -/
def isSentenceEnd (segment : TranscriptionSegment) : Bool :=
  if !(strEndsWith segment.text "." || strEndsWith segment.text "?" ||
      strEndsWith segment.text "!") then
    false
  else if strEndsWith segment.text "..." then
    false
  else
    true

/-- `_segments_to_sequence`. -/
def segmentsToSequence (segments : List TranscriptionSegment) :
    TranscriptionSequence :=
  { text := segments.map (·.text)
    starts := segments.map (·.start)
    ends := segments.map (·.endT) }

/-- The state of a `LocalAgree` instance (field spellings follow the
source, including `commited`). -/
structure LocalAgree where
  localAgreeDim : ℕ
  commitedSegments : List TranscriptionSegment
  inProgressSegments : List (List TranscriptionSegment)
  commitedTime : ℚ
deriving DecidableEq, Repr

/-- `LocalAgree.__init__`: rejects a dimension below 1. -/
def LocalAgree.init (localAgreeDim : ℕ) : Except Unit LocalAgree :=
  if localAgreeDim < 1 then
    .error ()
  else
    .ok { localAgreeDim := localAgreeDim, commitedSegments := [],
          inProgressSegments := [], commitedTime := 0 }

/-- Inner loop of `_next_commit_segment`: scan the hypotheses in order,
comparing each head's text with the newest hypothesis' head text.
`newest` is `self._in_progress_segments[-1]`; reading `newest[0]` while it
is empty raises `IndexError` (`.error`). -/
def nextCommitAux (newest : List TranscriptionSegment) :
    List (List TranscriptionSegment) →
      Except Unit (Option TranscriptionSegment)
  | [] =>
    -- after the loop the source returns `self._in_progress_segments[-1][0]`;
    -- when the scan traversed every hypothesis, `newest` was among them, so
    -- it is non-empty here (the `[]` case is unreachable from
    -- `nextCommitSegment`)
    match newest with
    | t :: _ => .ok (some t)
    | [] => .ok none
  | h :: rest =>
    match h with
    | [] => .ok none
    | s :: _ =>
      match newest with
      | [] => .error ()
      | t :: _ => if s.text = t.text then nextCommitAux newest rest else .ok none

/-- `_next_commit_segment`: the head of the newest hypothesis when every
hypothesis agrees on its head text, `none` otherwise; raises when an
indexing step hits an empty deque. -/
def nextCommitSegment (hyps : List (List TranscriptionSegment)) :
    Except Unit (Option TranscriptionSegment) :=
  match hyps.getLast? with
  | none => .error ()
  | some newest => nextCommitAux newest hyps

/-- Result of the commit loop at the end of `append_transcription`:
the updated `commited` deque, `commited_time`, hypotheses, and whether the
loop was interrupted by an `IndexError` (state mutations before the raise
persist). -/
structure CommitResult where
  commited : List TranscriptionSegment
  commitedTime : ℚ
  hyps : List (List TranscriptionSegment)
  errored : Bool
deriving DecidableEq, Repr

/-- The `while (segment := self._next_commit_segment()) is not None` loop of
`append_transcription`. -/
def commitLoop (commited : List TranscriptionSegment) (ct : ℚ)
    (hyps : List (List TranscriptionSegment)) : CommitResult :=
  match h : nextCommitSegment hyps with
  | .error _ => ⟨commited, ct, hyps, true⟩
  | .ok none => ⟨commited, ct, hyps, false⟩
  | .ok (some seg) =>
    commitLoop (commited ++ [seg]) seg.endT (hyps.map (·.drop 1))
termination_by hyps.getLast?.elim 0 List.length
decreasing_by
  simp only [List.getLast?_map]
  rcases hn : hyps.getLast? with _ | newest
  · simp [nextCommitSegment, hn] at h
  · rcases newest with _ | ⟨t, ts⟩
    · exfalso
      simp only [nextCommitSegment, hn] at h
      rcases hyps with _ | ⟨l, ls⟩
      · simp at hn
      · rcases l with _ | ⟨s, _⟩ <;> simp [nextCommitAux] at h
    · simp [hn, Option.elim]

/-- `append_transcription`: admit a new hypothesis (dropping its leading
segments that start before `commited_time`), keep only the newest
`local_agree_dim` hypotheses, then run the commit loop.  The boolean is
true when the commit loop raised `IndexError`. -/
def LocalAgree.appendTranscription (st : LocalAgree)
    (segments : List TranscriptionSegment) : LocalAgree × Bool :=
  let newSegments :=
    segments.dropWhile fun s => decide (s.start < st.commitedTime)
  let inP := st.inProgressSegments ++ [newSegments]
  let inP := if st.localAgreeDim < inP.length then inP.drop 1 else inP
  if inP.length < st.localAgreeDim then
    ({ st with inProgressSegments := inP }, false)
  else
    let r := commitLoop st.commitedSegments st.commitedTime inP
    ({ st with commitedSegments := r.commited,
               commitedTime := r.commitedTime,
               inProgressSegments := r.hyps }, r.errored)

/-- `get_in_progress`: `commited` followed by the newest hypothesis;
`self._in_progress_segments[-1]` raises `IndexError` when no hypothesis was
ever appended. -/
def LocalAgree.getInProgress (st : LocalAgree) :
    Except Unit (Option TranscriptionSequence) :=
  match st.inProgressSegments.getLast? with
  | none => .error ()
  | some newest =>
    let segs := st.commitedSegments ++ newest
    if segs.isEmpty then .ok none else .ok (some (segmentsToSequence segs))

/-- The scan of `pop_finalized`: fold over `commited`, accumulating a
`potential_finalized` run that is flushed into `finalized` at every
sentence-ending segment.  Returns `(finalized, potential_finalized)`. -/
def collectFinalized (finalized potential : List TranscriptionSegment) :
    List TranscriptionSegment →
      List TranscriptionSegment × List TranscriptionSegment
  | [] => (finalized, potential)
  | s :: rest =>
    let potential' := potential ++ [s]
    if isSentenceEnd s then
      collectFinalized (finalized ++ potential') [] rest
    else
      collectFinalized finalized potential' rest

/-- `pop_finalized`: collect the finalizable segments, pop that many from
the left of `commited`, and return them as a sequence (or `none`). -/
def LocalAgree.popFinalized (st : LocalAgree) :
    Option TranscriptionSequence × LocalAgree :=
  let finalized := (collectFinalized [] [] st.commitedSegments).1
  let st' :=
    { st with commitedSegments := st.commitedSegments.drop finalized.length }
  if finalized.isEmpty then (none, st')
  else (some (segmentsToSequence finalized), st')

/-- `force_finalized(end_time)`: pop committed segments starting before
`end_time`; then (when any hypothesis exists) pop such segments from the
newest hypothesis and drop them from every retained hypothesis. -/
def LocalAgree.forceFinalized (st : LocalAgree) (endTime : ℚ) :
    Option TranscriptionSequence × LocalAgree :=
  let p := fun (s : TranscriptionSegment) => decide (s.start < endTime)
  let popped₁ := st.commitedSegments.takeWhile p
  let rest := st.commitedSegments.dropWhile p
  match st.inProgressSegments.getLast? with
  | none =>
    (if popped₁.isEmpty then none else some (segmentsToSequence popped₁),
     { st with commitedSegments := rest })
  | some newest =>
    let popped₂ := newest.takeWhile p
    let inProgress' := st.inProgressSegments.map (List.dropWhile p)
    let all := popped₁ ++ popped₂
    (if all.isEmpty then none else some (segmentsToSequence all),
     { st with commitedSegments := rest, inProgressSegments := inProgress' })

/-! Specification-side descriptions of the LocalAgree operations, used to
state the claims (these follow the specification's words, for comparison
with the source-derived functions above). -/

/-- Whether every hypothesis is non-empty and agrees with the newest
hypothesis on its head text. -/
def headAgree (hyps : List (List TranscriptionSegment)) : Bool :=
  match hyps.getLast? with
  | none => false
  | some [] => false
  | some (t :: _) =>
    hyps.all fun l =>
      match l with
      | [] => false
      | s :: _ => s.text = t.text

/-- Length of the longest head run on which all hypotheses agree
word-by-word. -/
def agreedLen (hyps : List (List TranscriptionSegment)) : ℕ :=
  if headAgree hyps then 1 + agreedLen (hyps.map (·.drop 1)) else 0
termination_by hyps.getLast?.elim 0 List.length
decreasing_by
  simp only [List.getLast?_map]
  rcases hn : hyps.getLast? with _ | newest
  · simp [headAgree, hn] at *
  · rcases newest with _ | ⟨t, ts⟩
    · simp_all [headAgree]
    · simp [Option.elim]

/-- The run of committed segments up to and including the first
sentence-ending segment, as described by the claim for `pop_finalized`
(`none` when no sentence-ending segment exists). -/
def firstSentenceRun : List TranscriptionSegment →
    Option (List TranscriptionSegment)
  | [] => none
  | s :: rest =>
    if isSentenceEnd s then some [s]
    else (firstSentenceRun rest).map (s :: ·)

/-- `pop_finalized` as worded by the claim: remove exactly the first
sentence-ending run and return it. -/
def popFinalizedFirstRunSpec (st : LocalAgree) :
    Option TranscriptionSequence × LocalAgree :=
  match firstSentenceRun st.commitedSegments with
  | none => (none, st)
  | some run =>
    (some (segmentsToSequence run),
     { st with commitedSegments := st.commitedSegments.drop run.length })

/-- Length of the committed prefix that `pop_finalized` actually removes:
everything up to and including the last sentence-ending segment. -/
def lastRunLen : List TranscriptionSegment → ℕ
  | [] => 0
  | s :: rest =>
    let r := lastRunLen rest
    if 0 < r then r + 1
    else if isSentenceEnd s then 1 else 0

/-! ## Worker process internals (`worker_process.py`) -/

/-- `NS_PER_MS`. -/
def NS_PER_MS : ℕ := 10 ^ 6

/-- `_JobState`. -/
inductive JState where
  | SLEEPING
  | READY
  | ERRORED
deriving DecidableEq, Repr

/-- The scheduler-relevant fields of `_JobEntry`. -/
structure JobEntry where
  jobId : ℕ
  state : JState
  periodMs : ℕ
  periodStartNs : ℤ
deriving DecidableEq, Repr

/-- A job entry's deadline, `period_start_ns + period_ms * NS_PER_MS`. -/
def JobEntry.deadline (e : JobEntry) : ℤ :=
  e.periodStartNs + e.periodMs * NS_PER_MS

/-- The marking pass of `_scheduler`: every `SLEEPING` entry whose
`period_start_ns` lies before `curr_time` becomes `READY`. -/
def markReady (currTime : ℤ) (entries : List JobEntry) : List JobEntry :=
  entries.map fun e =>
    if e.state = JState.SLEEPING ∧ e.periodStartNs < currTime then
      { e with state := JState.READY }
    else e

/-- One step of the `_scheduler_edf` fold: keep the current best
`(job_id, deadline)` unless the entry is `READY` and strictly improves the
deadline. -/
def edfStep (acc : Option (ℕ × ℤ)) (e : JobEntry) : Option (ℕ × ℤ) :=
  if e.state = JState.READY then
    match acc with
    | none => some (e.jobId, e.deadline)
    | some (_, d) => if e.deadline < d then some (e.jobId, e.deadline) else acc
  else acc

/-- `_scheduler_edf`: the `READY` entry with the earliest deadline
(iteration order breaks ties). -/
def schedulerEdf (entries : List JobEntry) : Option ℕ :=
  (entries.foldl edfStep none).map Prod.fst

/-- Reference description of `_scheduler_edf` used in the proofs: the
leftmost `READY` entry with minimal deadline, computed recursively. -/
def readyMin : List JobEntry → Option (ℕ × ℤ)
  | [] => none
  | e :: rest =>
    let r := readyMin rest
    if e.state = JState.READY then
      match r with
      | none => some (e.jobId, e.deadline)
      | some (j, d) =>
        if e.deadline ≤ d then some (e.jobId, e.deadline) else some (j, d)
    else r

/-- Left-biased merge of two candidate `(job_id, deadline)` picks: the
second replaces the first only when its deadline is strictly smaller
(matching `_scheduler_edf`'s update rule). -/
def combineEdf : Option (ℕ × ℤ) → Option (ℕ × ℤ) → Option (ℕ × ℤ)
  | none, r => r
  | some a, none => some a
  | some a, some b => if b.2 < a.2 then some b else some a

/-- `_JobContextTable.destroy_unused`, iterating over a snapshot of the
table's keys.  `destroyFails ctx` tells whether `destroy` raises for the
instance of `ctx`; a raise propagates immediately (`errored = true`),
leaving the current entry and all later unused entries in the table. -/
def destroyUnusedGo (destroyFails : ℕ → Bool) (activeContextIds : List ℕ) :
    List ℕ → List (ℕ × ℕ) → List (ℕ × ℕ) × Bool
  | [], table => (table, false)
  | k :: rest, table =>
    if k ∈ activeContextIds then
      destroyUnusedGo destroyFails activeContextIds rest table
    else if destroyFails k then
      (table, true)
    else
      destroyUnusedGo destroyFails activeContextIds rest
        (table.filter fun p => p.1 ≠ k)

/-- `_JobContextTable.destroy_unused(active_context_ids)`. -/
def destroyUnused (destroyFails : ℕ → Bool) (activeContextIds : List ℕ)
    (table : List (ℕ × ℕ)) : List (ℕ × ℕ) × Bool :=
  destroyUnusedGo destroyFails activeContextIds (table.map Prod.fst) table

/-! ## Rolling utilization (`worker_process_manager.py`, `_RollingUtilization`) -/

/-- `WorkerState`. -/
inductive WState where
  | ADMIN
  | IDLE
  | BUSY
deriving DecidableEq, Repr

/-- The `_RollingUtilization` state: per-state counters, the running total,
the window length and the increments deque (oldest first). -/
structure RollingUtilization where
  adminTimeNs : ℤ
  idleTimeNs : ℤ
  busyTimeNs : ℤ
  totalTimeNs : ℤ
  rollingWindowNs : ℤ
  increments : List (WState × ℤ)
deriving DecidableEq, Repr

/-- `_RollingUtilization.__init__`. -/
def RollingUtilization.init (rollingWindowNs : ℤ) : RollingUtilization :=
  { adminTimeNs := 0, idleTimeNs := 0, busyTimeNs := 0, totalTimeNs := 0,
    rollingWindowNs := rollingWindowNs, increments := [] }

/-- The private `_increment`: bump the total and the counter of `state` by
`incrementNs` (which is negative during eviction). -/
def RollingUtilization.bump (r : RollingUtilization) (state : WState)
    (incrementNs : ℤ) : RollingUtilization :=
  let r := { r with totalTimeNs := r.totalTimeNs + incrementNs }
  match state with
  | .ADMIN => { r with adminTimeNs := r.adminTimeNs + incrementNs }
  | .IDLE => { r with idleTimeNs := r.idleTimeNs + incrementNs }
  | .BUSY => { r with busyTimeNs := r.busyTimeNs + incrementNs }

/-- The eviction loop at the end of `increment`: examine the oldest entry;
if removing it would leave the total below the window, stop; otherwise pop
it, subtract it from the counters and continue.  Reading
`self._increments[0]` on an emptied deque raises `IndexError`
(`.error`). -/
def evictLoop (r : RollingUtilization) :
    List (WState × ℤ) → Except Unit RollingUtilization
  | [] => .error ()
  | (s, n) :: rest =>
    if r.totalTimeNs - n < r.rollingWindowNs then
      .ok { r with increments := (s, n) :: rest }
    else
      evictLoop (r.bump s (-n)) rest

/-- `_RollingUtilization.increment(state, increment_ns)`. -/
def RollingUtilization.increment (r : RollingUtilization) (state : WState)
    (incrementNs : ℤ) : Except Unit RollingUtilization :=
  let r₁ := r.bump state incrementNs
  evictLoop r₁ (r.increments ++ [(state, incrementNs)])

/-- The `utilization` property: `1 - idle / total`, or `0` when no time has
been recorded. -/
def RollingUtilization.utilization (r : RollingUtilization) : ℚ :=
  if r.totalTimeNs = 0 then 0
  else 1 - (r.idleTimeNs : ℚ) / (r.totalTimeNs : ℚ)

/-- Run a sequence of `increment` calls. -/
def incrementMany (r : RollingUtilization) :
    List (WState × ℤ) → Except Unit RollingUtilization
  | [] => .ok r
  | (s, n) :: ops => do incrementMany (← r.increment s n) ops

/-- Sum of the `ns` components of an increments list. -/
def sumNs (l : List (WState × ℤ)) : ℤ :=
  (l.map Prod.snd).sum

/-- Sum of the `ns` components of the entries recorded for `state`. -/
def sumStateNs (state : WState) (l : List (WState × ℤ)) : ℤ :=
  ((l.filter fun p => p.1 = state).map Prod.snd).sum

/-- Well-formedness of a `_RollingUtilization` state: the counters agree
with the increments deque, every recorded duration is non-negative, and
(as the eviction loop guarantees) removing the oldest entry would leave
the total below the window. -/
def RollingUtilization.WF (r : RollingUtilization) : Prop :=
  r.totalTimeNs = sumNs r.increments ∧
  r.idleTimeNs = sumStateNs WState.IDLE r.increments ∧
  (∀ p ∈ r.increments, 0 ≤ p.2) ∧
  (∀ hd rest, r.increments = hd :: rest →
    r.totalTimeNs - hd.2 < r.rollingWindowNs)

/-! ## Worker-pool dispatcher (`worker_pool.py`, `worker_process_manager.py`)

The context-definition dict is an association list from context id to spec
(insertion-ordered, unique keys); a worker is its `utilization` and
`active_context_ids` view. -/

/-- The placement-relevant fields of a context definition
(`JobContextInterface`). -/
structure ContextSpec where
  tags : List String
  negativeAffinity : Option String
  maxInstances : ℤ
  creationCost : ℚ
deriving DecidableEq, Repr

/-- The dispatcher's view of one `WorkerProcessManager`. -/
structure WorkerInfo where
  utilization : ℚ
  activeContextIds : List ℕ
deriving DecidableEq, Repr

/-- The `WorkerPool` state. -/
structure WorkerPool where
  processes : List WorkerInfo
  contextDef : List (ℕ × ContextSpec)
deriving DecidableEq, Repr

/-- Dict lookup `self._context_def[context_id]`.  Every call site uses ids
drawn from the dict's own keys, so the default is never observed. -/
def getCtx (contextDef : List (ℕ × ContextSpec)) (contextId : ℕ) :
    ContextSpec :=
  ((contextDef.find? fun p => p.1 = contextId).map Prod.snd).getD
    ⟨[], none, -1, 0⟩

/-- `get_context_ids_by_tag`. -/
def WorkerPool.getContextIdsByTag (pool : WorkerPool) (tag : String) :
    List ℕ :=
  (pool.contextDef.filter fun p => tag ∈ p.2.tags).map Prod.fst

/-- `_get_min_utilization`: index of the first worker with strictly
minimal utilization. -/
def WorkerPool.getMinUtilization (pool : WorkerPool) : Option ℕ :=
  (pool.processes.enum.foldl
    (fun acc (ip : ℕ × WorkerInfo) =>
      match acc with
      | none => some (ip.1, ip.2.utilization)
      | some (_, u) =>
        if u > ip.2.utilization then some (ip.1, ip.2.utilization) else acc)
    none).map Prod.fst

/-- `_context_max_active_reached`. -/
def WorkerPool.contextMaxActiveReached (pool : WorkerPool)
    (contextId : ℕ) : Bool :=
  let maxInstances := (getCtx pool.contextDef contextId).maxInstances
  if maxInstances = -1 then false
  else
    let count :=
      (pool.processes.filter fun p => contextId ∈ p.activeContextIds).length
    maxInstances ≤ (count : ℤ)

/-- `_context_ids_are_compatible` as written in the source.  The guard
`if other_id != context_ids:` compares the int `other_id` with the whole
tuple `context_ids`, which is always true in Python, so every element's
tags (including the element's own) enter `other_tags`. -/
def WorkerPool.contextIdsAreCompatible (pool : WorkerPool)
    (contextIds : List ℕ) : Bool :=
  contextIds.all fun contextId =>
    let otherTags :=
      contextIds.foldl
        (fun acc otherId => acc ++ (getCtx pool.contextDef otherId).tags) []
    match (getCtx pool.contextDef contextId).negativeAffinity with
    | none => true
    | some t => !(t ∈ otherTags)

/-- The compatibility check as worded by the claim: the element's own
entry is skipped when computing the tags of the other elements. -/
def contextIdsAreCompatibleSpec (pool : WorkerPool)
    (contextIds : List ℕ) : Bool :=
  contextIds.enum.all fun ic =>
    let otherTags :=
      (contextIds.enum.filter fun jc => jc.1 ≠ ic.1).foldl
        (fun acc jc => acc ++ (getCtx pool.contextDef jc.2).tags) []
    match (getCtx pool.contextDef ic.2).negativeAffinity with
    | none => true
    | some t => !(t ∈ otherTags)

/-- `_has_negative_affinity(context_id, process_id)`. -/
def WorkerPool.hasNegativeAffinity (pool : WorkerPool) (contextId : ℕ)
    (processId : ℕ) : Bool :=
  let tags := (getCtx pool.contextDef contextId).tags
  let negativeAffinity :=
    (getCtx pool.contextDef contextId).negativeAffinity
  let proc := pool.processes.getD processId ⟨0, []⟩
  let activeContextTags :=
    proc.activeContextIds.foldl
      (fun acc activeId => acc ++ (getCtx pool.contextDef activeId).tags) []
  let activeNegativeAffinity :=
    proc.activeContextIds.foldl
      (fun acc activeId =>
        match (getCtx pool.contextDef activeId).negativeAffinity with
        | some t => acc ++ [t]
        | none => acc) []
  let selfHit :=
    match negativeAffinity with
    | some t => t ∈ activeContextTags
    | none => false
  selfHit || !(tags.all fun t => !(t ∈ activeNegativeAffinity))

/-- `_assignment_is_valid(context_ids, process_id)`. -/
def WorkerPool.assignmentIsValid (pool : WorkerPool)
    (contextIds : List ℕ) (processId : ℕ) : Bool :=
  contextIds.all fun contextId =>
    !(pool.hasNegativeAffinity contextId processId) &&
    !(pool.contextMaxActiveReached contextId &&
      !(contextId ∈
        (pool.processes.getD processId ⟨0, []⟩).activeContextIds))

/-- `itertools.product`: leftmost factor varies slowest. -/
def listProduct : List (List ℕ) → List (List ℕ)
  | [] => [[]]
  | l :: rest => l.flatMap fun x => (listProduct rest).map (x :: ·)

/-- `_get_potential_assignments(matched_contexts)`. -/
def WorkerPool.getPotentialAssignments (pool : WorkerPool)
    (matchedContexts : List (List ℕ)) : List (ℕ × List ℕ) :=
  (listProduct matchedContexts).flatMap fun contextIds =>
    if !(pool.contextIdsAreCompatible contextIds) then []
    else
      (List.range pool.processes.length).filterMap fun processId =>
        if pool.assignmentIsValid contextIds processId then
          some (processId, contextIds)
        else none

/-- The two exceptions `register_job` can raise. -/
inductive RegisterError where
  | keyError
  | runtimeError
deriving DecidableEq, Repr

/-- `creation_cost` of an assignment: sum of `creation_cost` over the
distinct context ids not already active on the worker. -/
def WorkerPool.creationCost (pool : WorkerPool) (processId : ℕ)
    (contextIds : List ℕ) : ℚ :=
  contextIds.dedup.foldl
    (fun acc contextId =>
      if contextId ∈
          (pool.processes.getD processId ⟨0, []⟩).activeContextIds then acc
      else acc + (getCtx pool.contextDef contextId).creationCost) 0

/-- `_assign_process(context_tags)`. -/
def WorkerPool.assignProcess (pool : WorkerPool)
    (contextTags : List String) : Except RegisterError (ℕ × List ℕ) :=
  if contextTags.isEmpty then
    -- the constructor guarantees at least one process, so the
    -- `cast(int, None)` branch of `_get_min_utilization` never shows
    .ok ((pool.getMinUtilization).getD 0, [])
  else
    let matchedContexts := contextTags.map pool.getContextIdsByTag
    if matchedContexts.any List.isEmpty then .error .keyError
    else
      let best :=
        (pool.getPotentialAssignments matchedContexts).foldl
          (fun acc (pa : ℕ × List ℕ) =>
            let score :=
              1 - (pool.processes.getD pa.1 ⟨0, []⟩).utilization -
                pool.creationCost pa.1 pa.2
            match acc with
            | none => some (score, pa)
            | some (bestScore, _) =>
              if score > bestScore then some (score, pa) else acc)
          none
      match best with
      | none => .error .runtimeError
      | some (_, pa) => .ok pa

/-- A Python value passed as the manager's `context_id` argument. -/
inductive PyArg where
  | none
  | int (n : ℕ)
  | tuple (ids : List ℕ)
deriving DecidableEq, Repr

/-- Python's `context_id in self._context_def` on an int-keyed dict: only
an int equal to a key is a member; `None` and tuples never are. -/
def pyDictContainsKey (contextDef : List (ℕ × ContextSpec)) :
    PyArg → Bool
  | .int n => contextDef.any fun p => p.1 = n
  | _ => false

/-- `WorkerProcessManager.register_job(context_id, period_ms, job)`: the
validation guard, then (on success) the job is registered and a
`JobHandle` is produced — abstracted to returning the accepted argument. -/
def managerRegisterJob (contextDef : List (ℕ × ContextSpec))
    (contextId : PyArg) : Except RegisterError PyArg :=
  if contextId ≠ PyArg.none ∧ !(pyDictContainsKey contextDef contextId) then
    .error .keyError
  else
    .ok contextId

/-- `WorkerPool.register_job(context_tags, period_ms, job)`: assign a
process, then forward the chosen context-id tuple to that process'
`WorkerProcessManager.register_job`. -/
def WorkerPool.registerJob (pool : WorkerPool)
    (contextTags : List String) : Except RegisterError (ℕ × PyArg) := do
  let (processId, contextIds) ← pool.assignProcess contextTags
  let handle ← managerRegisterJob pool.contextDef (.tuple contextIds)
  .ok (processId, handle)

/-! ## Streaming pipeline (`whisper_streaming_job.py`)

The audio decoder, silence gate, VAD and whisper decoder are external
collaborators; their outputs enter the model as oracle inputs: each batch
element is `(is_silent, sample_count)` for one successfully decoded chunk,
and `oracleSegments` is the word-segment list `_transcribe_audio` derives
from the decoder output for a non-empty buffer.  The chunk ledger and
latency bookkeeping touch neither the buffer, the offset nor `LocalAgree`
and are omitted.  A raised exception (`TranscriptionClientError`, numpy
broadcast failure, `IndexError`, `RuntimeError`) aborts the invocation and
is modelled as `.error`. -/

/-- `SAMPLE_RATE`. -/
def SAMPLE_RATE : ℕ := 16000

/-- The state of a `WhisperStreamingProviderJob`. -/
structure WhisperStreamingJob where
  maxBufferSamples : ℕ
  buffer : NPCircularBuffer
  bufferOffsetSamples : ℤ
  localAgree : LocalAgree
  lastFinalized : String
deriving DecidableEq, Repr

/-- `_decode_audio(batch)`: silent chunks are dropped; the rest are
appended, and leftover samples raise a client error. -/
def decodeAudio : WhisperStreamingJob → List (Bool × ℕ) →
    Except Unit WhisperStreamingJob
  | st, [] => .ok st
  | st, (isSilent, n) :: rest =>
    if isSilent then decodeAudio st rest
    else
      -- `extra = self._buffer.append(samples)`; leftover samples mean the
      -- client sent audio too fast
      if 0 < (st.buffer.append n).2 then .error ()
      else decodeAudio { st with buffer := (st.buffer.append n).1 } rest

/-- The forced-finalization step of `process_batch`: when the buffer holds
more than `max_buffer_samples`, force-finalize up to the purge point, purge
the buffer and advance the offset. -/
def forcedFinalization (st : WhisperStreamingJob) :
    Except Unit (Option TranscriptionSequence × WhisperStreamingJob) :=
  if (st.maxBufferSamples : ℤ) < st.buffer.currSize then do
    let samplesToPurge := st.buffer.currSize - st.maxBufferSamples
    let endTime : ℚ :=
      ((st.bufferOffsetSamples + samplesToPurge : ℤ) : ℚ) /
        (SAMPLE_RATE : ℚ)
    let fl := st.localAgree.forceFinalized endTime
    let buf ← st.buffer.purge samplesToPurge
    .ok (fl.1,
      { st with buffer := buf,
                bufferOffsetSamples :=
                  st.bufferOffsetSamples + samplesToPurge,
                localAgree := fl.2 })
  else
    .ok (none, st)

/-- `_append_sequence(a, b)` on two distinct sequences. -/
def appendSequence (a b : TranscriptionSequence) : TranscriptionSequence :=
  { text := a.text ++ b.text, starts := a.starts ++ b.starts,
    ends := a.ends ++ b.ends }

/-- The stabilization tail of `process_batch` (everything after the
forced-finalization step): transcribe (oracle), stabilize through
`LocalAgree`, purge the finalized buffer span, and produce
`(in_progress, final)`.

When the appended transcription leaves `pop_finalized` empty while a
forced finalization happened, the source aliases `final = forced_final`
and then `_append_sequence(forced_final, final)` doubles that sequence's
contents; the model reproduces this. -/
def stabilizeBatch (forcedFinal : Option TranscriptionSequence)
    (st : WhisperStreamingJob)
    (oracleSegments : List TranscriptionSegment) :
    Except Unit (WhisperStreamingJob ×
      Option TranscriptionSequence × Option TranscriptionSequence) := do
  -- `_transcribe_audio` returns `[]` when the buffer view is empty
  let segments :=
    if sliceLen st.buffer.maxSize st.buffer.currSize = 0 then []
    else oracleSegments
  if segments.isEmpty then
    let lastFin :=
      match forcedFinal with
      | some ff => String.join ff.text
      | none => st.lastFinalized
    .ok ({ st with lastFinalized := lastFin }, none, forcedFinal)
  else
    let ap := st.localAgree.appendTranscription segments
    if ap.2 then .error ()
    else
      let pf := ap.1.popFinalized
      let fin := pf.1
      let la := pf.2
      let inProgress ← la.getInProgress
      let st := { st with localAgree := la }
      match fin with
      | none =>
        match forcedFinal with
        | some ff =>
          let doubled := appendSequence ff ff
          .ok ({ st with lastFinalized := String.join doubled.text },
            inProgress, some doubled)
        | none => .ok (st, inProgress, none)
      | some f => do
        let st ←
          if f.ends.isEmpty then .ok st
          else do
            let endTime := f.ends.getLastD 0
            let endSamples := pyInt (endTime * (SAMPLE_RATE : ℚ))
            let samplesToPurge := endSamples - st.bufferOffsetSamples
            let buf ← st.buffer.purge samplesToPurge
            .ok { st with buffer := buf,
                          bufferOffsetSamples := endSamples,
                          lastFinalized := String.join f.text }
        match forcedFinal with
        | some ff =>
          let merged := appendSequence ff f
          .ok ({ st with lastFinalized := String.join merged.text },
            inProgress, some merged)
        | none => .ok (st, inProgress, some f)

/-- `process_batch` (see the section comment): decode and silence-gate the
batch, force-finalize on backpressure, then stabilize. -/
def processBatch (st : WhisperStreamingJob) (batch : List (Bool × ℕ))
    (oracleSegments : List TranscriptionSegment) :
    Except Unit (WhisperStreamingJob ×
      Option TranscriptionSequence × Option TranscriptionSequence) := do
  let st ← decodeAudio st batch
  let fs ← forcedFinalization st
  stabilizeBatch fs.1 fs.2 oracleSegments

/-- A transcription segment whose end timestamp falls inside the admitted
sample window `[offset, offset + curr]` (after Python `int()` truncation of
`end * SAMPLE_RATE`), with a well-ordered time span.  This is the §6
decoder contract combined with the data-model invariant on committed
segments; claim C8 is settled under it. -/
def segWindowOK (offset curr : ℤ) (s : TranscriptionSegment) : Prop :=
  s.start ≤ s.endT ∧
  offset ≤ pyInt (s.endT * (SAMPLE_RATE : ℚ)) ∧
  pyInt (s.endT * (SAMPLE_RATE : ℚ)) ≤ offset + curr

/-! ## Lemmas about the circular buffer -/

lemma sliceIdx_of_nonneg_le {size : ℕ} {i : ℤ} (h0 : 0 ≤ i)
    (h1 : i ≤ (size : ℤ)) : (sliceIdx size i : ℤ) = i := by
  simp only [sliceIdx, if_pos h0]
  omega

/-- Purging `n ≤ len` samples from a canonical buffer succeeds and removes
exactly `n`. -/
lemma purge_ok_of_le {buf : NPCircularBuffer} {n : ℕ}
    (h0 : 0 ≤ buf.currSize) (h1 : buf.currSize ≤ (buf.maxSize : ℤ))
    (h2 : (n : ℤ) ≤ buf.currSize) :
    buf.purge n = .ok { buf with currSize := buf.currSize - n } := by
  have hmin : min (buf.maxSize : ℤ) (n : ℤ) = (n : ℤ) := by omega
  have hl : (sliceLen buf.maxSize (buf.currSize - n) : ℤ) =
      buf.currSize - n := sliceIdx_of_nonneg_le (by omega) (by omega)
  have ha : (sliceIdx buf.maxSize (n : ℤ) : ℤ) = (n : ℤ) :=
    sliceIdx_of_nonneg_le (by omega) (by omega)
  have hb : (sliceIdx buf.maxSize buf.currSize : ℤ) = buf.currSize :=
    sliceIdx_of_nonneg_le h0 h1
  have hr : sliceRangeLen buf.maxSize ((n : ℤ)) buf.currSize =
      sliceLen buf.maxSize (buf.currSize - n) := by
    simp only [sliceRangeLen, sliceLen] at *
    omega
  simp only [NPCircularBuffer.purge, hmin, hr]
  simp

/-- Appending keeps a canonical buffer canonical and never shrinks it. -/
lemma append_canonical {buf : NPCircularBuffer} {n : ℕ}
    (h0 : 0 ≤ buf.currSize) (h1 : buf.currSize ≤ (buf.maxSize : ℤ)) :
    0 ≤ (buf.append n).1.currSize ∧
    (buf.append n).1.currSize ≤ ((buf.append n).1.maxSize : ℤ) ∧
    buf.currSize ≤ (buf.append n).1.currSize ∧
    (buf.append n).1.maxSize = buf.maxSize := by
  simp only [NPCircularBuffer.append]
  split <;> simp_all <;> omega

/-- Running a sequence of safe operations from a canonical buffer succeeds
and preserves canonicity. -/
lemma runBufOps_canonical {buf : NPCircularBuffer} {ops : List BufOp}
    (hsafe : SafeBufOps buf ops) (h0 : 0 ≤ buf.currSize)
    (h1 : buf.currSize ≤ (buf.maxSize : ℤ)) :
    ∃ buf', runBufOps buf ops = .ok buf' ∧ 0 ≤ buf'.currSize ∧
      buf'.currSize ≤ (buf'.maxSize : ℤ) := by
  induction hsafe with
  | nil buf => exact ⟨buf, rfl, h0, h1⟩
  | append buf n ops _ ih =>
    obtain ⟨hb0, hb1, _, _⟩ := @append_canonical buf n h0 h1
    obtain ⟨buf', hrun, hc⟩ := ih hb0 hb1
    exact ⟨buf', hrun, hc⟩
  | purge buf n ops hn _ ih =>
    obtain ⟨buf', hrun, hc⟩ := ih (by simp; omega) (by simp; omega)
    refine ⟨buf', ?_, hc⟩
    simpa [runBufOps, purge_ok_of_le h0 h1 hn] using hrun

/-- C2.  The claim as stated is false (see `C2_counterexample`): `purge`
clamps the amount to the capacity, not to the length, so a purge larger
than the live length either raises a numpy broadcast error or drives the
length negative.  Amended: `purge(n)` removes exactly `n = min(n, len)`
samples whenever `n ≤ len`, and after any sequence of `append`/`purge`
operations in which every purge amount is at most the current length
(the repository's usage pattern), `0 ≤ len ≤ capacity` holds. -/
theorem C2_buffer_invariant :
    (∀ (buf : NPCircularBuffer) (n : ℕ), 0 ≤ buf.currSize →
      buf.currSize ≤ (buf.maxSize : ℤ) → (n : ℤ) ≤ buf.len →
      buf.purge n = .ok { buf with currSize := buf.currSize - n } ∧
      buf.len - (buf.currSize - n) = min (n : ℤ) buf.len) ∧
    (∀ (buf : NPCircularBuffer) (ops : List BufOp), SafeBufOps buf ops →
      0 ≤ buf.currSize → buf.currSize ≤ (buf.maxSize : ℤ) →
      ∃ buf', runBufOps buf ops = .ok buf' ∧
        0 ≤ buf'.len ∧ buf'.len ≤ (buf'.maxSize : ℤ)) := by
  constructor
  · intro buf n h0 h1 h2
    refine ⟨purge_ok_of_le h0 h1 h2, ?_⟩
    simp only [NPCircularBuffer.len] at *
    omega
  · intro buf ops hsafe h0 h1
    simpa [NPCircularBuffer.len] using runBufOps_canonical hsafe h0 h1

/-- Witness for `C2_buffer_invariant` at the buffer `⟨3, 4⟩`, purge
amount 2, and the operation sequence `[append 3, purge 2]` from an empty
capacity-4 buffer. -/
theorem C2_buffer_invariant_witness :
    (0 ≤ (⟨3, 4⟩ : NPCircularBuffer).currSize ∧
      (⟨3, 4⟩ : NPCircularBuffer).currSize ≤ 4 ∧
      (2 : ℤ) ≤ (⟨3, 4⟩ : NPCircularBuffer).len ∧
      NPCircularBuffer.purge ⟨3, 4⟩ 2 = .ok ⟨1, 4⟩) ∧
    (SafeBufOps (NPCircularBuffer.init 4) [.append 3, .purge 2] ∧
      ∃ buf', runBufOps (NPCircularBuffer.init 4)
          [.append 3, .purge 2] = .ok buf' ∧
        0 ≤ buf'.len ∧ buf'.len ≤ (buf'.maxSize : ℤ)) := by
  have hsafe : SafeBufOps (NPCircularBuffer.init 4) [.append 3, .purge 2] := by
    refine .append _ _ _ (.purge _ _ _ (by decide) (.nil _))
  refine ⟨⟨by decide, by decide, by decide, ?_⟩, hsafe, ?_⟩
  · have h := (C2_buffer_invariant.1 ⟨3, 4⟩ 2 (by decide) (by decide)
      (by decide)).1
    simpa using h
  · exact C2_buffer_invariant.2 (NPCircularBuffer.init 4)
      [.append 3, .purge 2] hsafe (by decide) (by decide)

/-- C2 counterexample: on an empty capacity-1 buffer, `purge(1)` completes
(numpy assigns an empty slice to an empty slice) and leaves `len = -1`,
while the claim requires the length to drop by `min(1, 0) = 0` and to stay
non-negative. -/
theorem C2_counterexample :
    NPCircularBuffer.purge (NPCircularBuffer.init 1) 1 = .ok ⟨-1, 1⟩ ∧
    (NPCircularBuffer.init 1).len - min 1 (NPCircularBuffer.init 1).len
      = 0 ∧
    NPCircularBuffer.purge (NPCircularBuffer.init 1) 1 ≠ .ok ⟨0, 1⟩ ∧
    (⟨-1, 1⟩ : NPCircularBuffer).len < 0 := by
  refine ⟨by decide, by decide, by decide, by decide⟩

/-! ## Lemmas about `pop_finalized` -/

lemma lastRunLen_le (l : List TranscriptionSegment) :
    lastRunLen l ≤ l.length := by
  induction l with
  | nil => simp [lastRunLen]
  | cons s rest ih =>
    simp only [lastRunLen, List.length_cons]
    split <;> [omega; split <;> omega]

/-- The scan of `pop_finalized` collects exactly the committed prefix up to
and including the last sentence-ending segment. -/
lemma collectFinalized_eq (l : List TranscriptionSegment) :
    ∀ F P : List TranscriptionSegment,
      (∀ s ∈ P, isSentenceEnd s = false) →
      (collectFinalized F P l).1 =
        if lastRunLen l = 0 then F else F ++ P ++ l.take (lastRunLen l) := by
  induction l with
  | nil => intro F P _; simp [collectFinalized, lastRunLen]
  | cons s rest ih =>
    intro F P hP
    by_cases hs : isSentenceEnd s
    · rw [show collectFinalized F P (s :: rest) =
          collectFinalized (F ++ (P ++ [s])) [] rest by
        simp [collectFinalized, hs]]
      rw [ih (F ++ (P ++ [s])) [] (by simp)]
      rcases Nat.eq_zero_or_pos (lastRunLen rest) with hr | hr
      · simp [lastRunLen, hr, hs, List.take_succ_cons]
      · have : lastRunLen (s :: rest) = lastRunLen rest + 1 := by
          simp [lastRunLen]; omega
        simp only [this, List.take_succ_cons]
        have : lastRunLen rest + 1 ≠ 0 := by omega
        simp only [Nat.pos_iff_ne_zero.mp hr |> fun h => h, if_neg this,
          if_neg (Nat.pos_iff_ne_zero.mp hr)]
        simp
    · rw [show collectFinalized F P (s :: rest) =
          collectFinalized F (P ++ [s]) rest by
        simp [collectFinalized, hs]]
      rw [ih F (P ++ [s]) (by
        intro x hx
        rcases List.mem_append.mp hx with h | h
        · exact hP x h
        · simp at h; simpa [h] using hs)]
      rcases Nat.eq_zero_or_pos (lastRunLen rest) with hr | hr
      · have : lastRunLen (s :: rest) = 0 := by
          simp [lastRunLen, hr, hs]
        simp [this, hr]
      · have h1 : lastRunLen (s :: rest) = lastRunLen rest + 1 := by
          simp [lastRunLen]; omega
        simp only [h1, List.take_succ_cons, if_neg (by omega : ¬ lastRunLen rest + 1 = 0),
          if_neg (Nat.pos_iff_ne_zero.mp hr)]
        simp

/-- No segment after the removed run ends a sentence. -/
lemma lastRunLen_drop (l : List TranscriptionSegment) :
    ∀ s ∈ l.drop (lastRunLen l), isSentenceEnd s = false := by
  induction l with
  | nil => simp
  | cons s rest ih =>
    rcases Nat.eq_zero_or_pos (lastRunLen rest) with hr | hr
    · by_cases hs : isSentenceEnd s
      · have : lastRunLen (s :: rest) = 1 := by simp [lastRunLen, hr, hs]
        simpa [this, hr] using ih
      · have : lastRunLen (s :: rest) = 0 := by simp [lastRunLen, hr, hs]
        intro x hx
        rw [this, List.drop_zero] at hx
        rcases List.mem_cons.mp hx with hx | hx
        · simpa [hx] using hs
        · exact ih x (by simpa [hr] using hx)
    · have : lastRunLen (s :: rest) = lastRunLen rest + 1 := by
        simp [lastRunLen]; omega
      simpa [this] using ih

/-- When the removed run is non-empty, its last segment ends a sentence. -/
lemma lastRunLen_last (l : List TranscriptionSegment)
    (h : 0 < lastRunLen l) :
    ∃ seg, (l.take (lastRunLen l)).getLast? = some seg ∧
      isSentenceEnd seg = true := by
  induction l with
  | nil => simp [lastRunLen] at h
  | cons s rest ih =>
    rcases Nat.eq_zero_or_pos (lastRunLen rest) with hr | hr
    · by_cases hs : isSentenceEnd s
      · have hk : lastRunLen (s :: rest) = 1 := by simp [lastRunLen, hr, hs]
        exact ⟨s, by simp [hk], hs⟩
      · have hk : lastRunLen (s :: rest) = 0 := by simp [lastRunLen, hr, hs]
        omega
    · have hk : lastRunLen (s :: rest) = lastRunLen rest + 1 := by
        simp [lastRunLen]; omega
      obtain ⟨seg, hlast, hend⟩ := ih hr
      refine ⟨seg, ?_, hend⟩
      have hne : rest.take (lastRunLen rest) ≠ [] := by
        have h1 := lastRunLen_le rest
        intro hcon
        have h2 : (rest.take (lastRunLen rest)).length = 0 := by simp [hcon]
        rw [List.length_take] at h2
        omega
      obtain ⟨y, ys, hys⟩ := List.exists_cons_of_ne_nil hne
      rw [hk, List.take_succ_cons, hys, List.getLast?_cons_cons, ← hys, hlast]

/-- C3 counterexample: with two committed sentence-ending segments,
`pop_finalized` removes and returns both sentences, not just the run up to
the first sentence end as the claim states. -/
theorem C3_counterexample :
    LocalAgree.popFinalized
        ⟨1, [⟨"Hi.", 0, 1⟩, ⟨"Yo.", 1, 2⟩], [], 0⟩ ≠
      popFinalizedFirstRunSpec
        ⟨1, [⟨"Hi.", 0, 1⟩, ⟨"Yo.", 1, 2⟩], [], 0⟩ ∧
    LocalAgree.popFinalized
        ⟨1, [⟨"Hi.", 0, 1⟩, ⟨"Yo.", 1, 2⟩], [], 0⟩ =
      (some ⟨["Hi.", "Yo."], [0, 1], [1, 2]⟩, ⟨1, [], [], 0⟩) ∧
    popFinalizedFirstRunSpec
        ⟨1, [⟨"Hi.", 0, 1⟩, ⟨"Yo.", 1, 2⟩], [], 0⟩ =
      (some ⟨["Hi."], [0], [1]⟩, ⟨1, [⟨"Yo.", 1, 2⟩], [], 0⟩) := by
  refine ⟨by decide, by decide, by decide⟩

/-- C3 (amended).  `pop_finalized` walks `committed` and accumulates the
run of segments up to and including the LAST sentence-ending segment
(equivalently: every complete sentence currently committed), removes
exactly that run and returns it; if no committed segment ends a sentence it
returns none and `committed` is unchanged.  The run boundary is
characterised by `lastRunLen_drop`/`lastRunLen_last` below: nothing after
the run ends a sentence, and the run's last segment does. -/
theorem C3_pop_finalized :
    ∀ st : LocalAgree,
      st.popFinalized =
        (if lastRunLen st.commitedSegments = 0 then none
         else some (segmentsToSequence
            (st.commitedSegments.take (lastRunLen st.commitedSegments))),
         { st with commitedSegments :=
            st.commitedSegments.drop (lastRunLen st.commitedSegments) }) ∧
      (∀ s ∈ st.commitedSegments.drop (lastRunLen st.commitedSegments),
        isSentenceEnd s = false) ∧
      (0 < lastRunLen st.commitedSegments →
        ∃ seg, (st.commitedSegments.take
            (lastRunLen st.commitedSegments)).getLast? = some seg ∧
          isSentenceEnd seg = true) := by
  intro st
  refine ⟨?_, lastRunLen_drop _, lastRunLen_last _⟩
  have hcol := collectFinalized_eq st.commitedSegments [] []
    (by intro s h; simp at h)
  simp only [List.nil_append] at hcol
  rcases Nat.eq_zero_or_pos (lastRunLen st.commitedSegments) with hr | hr
  · simp only [LocalAgree.popFinalized, hcol, hr, if_pos rfl]
    simp
  · have hne : ¬ lastRunLen st.commitedSegments = 0 := by omega
    have hlen : (st.commitedSegments.take
        (lastRunLen st.commitedSegments)).length =
        lastRunLen st.commitedSegments := by
      have := lastRunLen_le st.commitedSegments
      simp [List.length_take]
      omega
    have htake_ne : ¬ (st.commitedSegments.take
        (lastRunLen st.commitedSegments)).isEmpty = true := by
      rw [List.isEmpty_iff]
      intro hcon
      have := congrArg List.length hcon
      simp [hlen] at this
      omega
    simp only [LocalAgree.popFinalized, hcol, if_neg hne, hlen, htake_ne,
      if_neg hne]
    simp [htake_ne]


/-! ## `get_in_progress` (C9) -/

/-- C9 counterexample: on a freshly constructed `LocalAgree` (no hypothesis
appended yet) `get_in_progress` raises `IndexError` on
`self._in_progress_segments[-1]` instead of returning `None`. -/
theorem C9_counterexample :
    LocalAgree.init 2 = .ok ⟨2, [], [], 0⟩ ∧
    LocalAgree.getInProgress ⟨2, [], [], 0⟩ = .error () ∧
    LocalAgree.getInProgress ⟨2, [], [], 0⟩ ≠ .ok none := by
  refine ⟨by decide, by decide, by decide⟩

/-- C9 (amended).  Once at least one hypothesis has been appended,
`get_in_progress` returns the committed segments concatenated with the
newest hypothesis, and `None` when that concatenation is empty; on a
freshly constructed instance it raises `IndexError` instead of returning
`None` (see `C9_counterexample`). -/
theorem C9_get_in_progress (st : LocalAgree)
    (h : st.inProgressSegments ≠ []) :
    ∃ newest, st.inProgressSegments.getLast? = some newest ∧
      st.getInProgress = .ok
        (if (st.commitedSegments ++ newest).isEmpty then none
         else some (segmentsToSequence (st.commitedSegments ++ newest))) := by
  rcases hn : st.inProgressSegments.getLast? with _ | newest
  · exact absurd (List.getLast?_eq_none_iff.mp hn) h
  · refine ⟨newest, rfl, ?_⟩
    cases hc : (st.commitedSegments ++ newest).isEmpty <;>
      simp [LocalAgree.getInProgress, hn, hc]

/-- Witness for `C9_get_in_progress` at a state holding one (empty)
hypothesis. -/
theorem C9_get_in_progress_witness :
    ((⟨1, [], [[]], 0⟩ : LocalAgree).inProgressSegments ≠ []) ∧
    ∃ newest,
      (⟨1, [], [[]], 0⟩ : LocalAgree).inProgressSegments.getLast?
        = some newest ∧
      (⟨1, [], [[]], 0⟩ : LocalAgree).getInProgress = .ok
        (if ((⟨1, [], [[]], 0⟩ : LocalAgree).commitedSegments
            ++ newest).isEmpty
         then none
         else some (segmentsToSequence
           ((⟨1, [], [[]], 0⟩ : LocalAgree).commitedSegments ++ newest))) :=
  ⟨by decide, C9_get_in_progress ⟨1, [], [[]], 0⟩ (by decide)⟩

/-! ## The commit loop of `append_transcription` -/

lemma nextCommitAux_ok_some {newest : List TranscriptionSegment}
    {L : List (List TranscriptionSegment)} {seg : TranscriptionSegment} :
    nextCommitAux newest L = .ok (some seg) →
    ∃ ts, newest = seg :: ts ∧
      ∀ l ∈ L, ∃ s sx, l = s :: sx ∧ s.text = seg.text := by
  induction L with
  | nil =>
    intro h
    rcases hn : newest with _ | ⟨t, ts⟩
    · rw [hn] at h
      simp [nextCommitAux] at h
    · rw [hn] at h
      simp only [nextCommitAux, Except.ok.injEq, Option.some.injEq] at h
      subst h
      exact ⟨ts, rfl, by simp⟩
  | cons l rest ih =>
    intro h
    rcases hl : l with _ | ⟨s, sx⟩
    · rw [hl] at h
      simp [nextCommitAux] at h
    · rcases hn : newest with _ | ⟨t, ts⟩
      · rw [hl, hn] at h
        simp [nextCommitAux] at h
      · rw [hl, hn] at h
        simp only [nextCommitAux] at h
        by_cases htx : s.text = t.text
        · rw [if_pos htx] at h
          obtain ⟨ts', hts', hall⟩ := ih (by rw [hn]; exact h)
          rw [hn] at hts'
          have h1 : t = seg := (List.cons.injEq ..).mp hts' |>.1
          have h2 : ts = ts' := (List.cons.injEq ..).mp hts' |>.2
          refine ⟨ts, by rw [h1], ?_⟩
          intro x hx
          rcases List.mem_cons.mp hx with rfl | hx
          · exact ⟨s, sx, rfl, h1 ▸ htx⟩
          · exact hall x hx
        · rw [if_neg htx] at h
          simp at h

lemma nextCommitAux_of_agree {t : TranscriptionSegment}
    {ts : List TranscriptionSegment}
    {L : List (List TranscriptionSegment)}
    (hall : ∀ l ∈ L, ∃ s sx, l = s :: sx ∧ s.text = t.text) :
    nextCommitAux (t :: ts) L = .ok (some t) := by
  induction L with
  | nil => simp [nextCommitAux]
  | cons l rest ih =>
    obtain ⟨s, sx, rfl, hs⟩ := hall l (by simp)
    simp only [nextCommitAux, if_pos hs]
    exact ih fun x hx => hall x (List.mem_cons_of_mem _ hx)

/-- `headAgree` unpacked. -/
lemma headAgree_iff {hyps : List (List TranscriptionSegment)} :
    headAgree hyps = true ↔
      ∃ t ts, hyps.getLast? = some (t :: ts) ∧
        ∀ l ∈ hyps, ∃ s sx, l = s :: sx ∧ s.text = t.text := by
  rcases hn : hyps.getLast? with _ | newest
  · simp only [headAgree, hn]
    constructor
    · intro h
      exact absurd h (by simp)
    · rintro ⟨t, ts, hcon, -⟩
      exact Option.noConfusion hcon
  · rcases newest with _ | ⟨t, ts⟩
    · simp only [headAgree, hn]
      constructor
      · intro h
        exact absurd h (by simp)
      · rintro ⟨t, ts, hcon, -⟩
        rw [Option.some.injEq] at hcon
        exact List.noConfusion hcon
    · simp only [headAgree, hn]
      constructor
      · intro hall
        refine ⟨t, ts, rfl, ?_⟩
        intro l hl
        have := List.all_eq_true.mp hall l hl
        rcases l with _ | ⟨s, sx⟩
        · simp at this
        · exact ⟨s, sx, rfl, by simpa using this⟩
      · rintro ⟨t', ts', ht', hall⟩
        rw [Option.some.injEq] at ht'
        have h1 : t = t' := (List.cons.injEq ..).mp ht' |>.1
        refine List.all_eq_true.mpr fun l hl => ?_
        obtain ⟨s, sx, rfl, hs⟩ := hall l hl
        simpa using h1 ▸ hs

lemma nextCommit_of_headAgree {hyps : List (List TranscriptionSegment)}
    (h : headAgree hyps = true) :
    ∃ t ts, hyps.getLast? = some (t :: ts) ∧
      nextCommitSegment hyps = .ok (some t) := by
  obtain ⟨t, ts, hn, hall⟩ := headAgree_iff.mp h
  refine ⟨t, ts, hn, ?_⟩
  simp only [nextCommitSegment, hn]
  exact nextCommitAux_of_agree hall

lemma headAgree_of_nextCommit {hyps : List (List TranscriptionSegment)}
    {seg : TranscriptionSegment}
    (h : nextCommitSegment hyps = .ok (some seg)) :
    headAgree hyps = true ∧ ∃ ts, hyps.getLast? = some (seg :: ts) := by
  rcases hn : hyps.getLast? with _ | newest
  · simp [nextCommitSegment, hn] at h
  · simp only [nextCommitSegment, hn] at h
    obtain ⟨ts, hts, hall⟩ := nextCommitAux_ok_some h
    subst hts
    exact ⟨headAgree_iff.mpr ⟨seg, ts, hn, hall⟩, ts, rfl⟩

lemma agreedLen_of_not_agree {hyps : List (List TranscriptionSegment)}
    (h : headAgree hyps = false) : agreedLen hyps = 0 := by
  rw [agreedLen]
  simp [h]

/-- Full description of the commit loop: it appends to `commited` exactly
the agreed head run taken from the newest hypothesis, pops that run from
every hypothesis, and sets `commited_time` to the end of the run's last
segment (keeping the old time when the run is empty). -/
lemma commitLoop_spec (c : List TranscriptionSegment) (ct : ℚ)
    (hyps : List (List TranscriptionSegment)) :
    (commitLoop c ct hyps).commited =
      c ++ (hyps.getLast?.getD []).take (agreedLen hyps) ∧
    (commitLoop c ct hyps).hyps = hyps.map (·.drop (agreedLen hyps)) ∧
    (commitLoop c ct hyps).commitedTime =
      (((hyps.getLast?.getD []).take (agreedLen hyps)).map
        (·.endT)).getLastD ct := by
  induction c, ct, hyps using commitLoop.induct with
  | case1 c ct hyps e heq =>
    have hagree : headAgree hyps = false := by
      by_contra hcon
      obtain ⟨t, ts, -, hnc⟩ :=
        nextCommit_of_headAgree (eq_true_of_ne_false hcon)
      rw [heq] at hnc
      exact Except.noConfusion hnc
    have hcl : commitLoop c ct hyps = ⟨c, ct, hyps, true⟩ := by
      rw [commitLoop]
      split <;> simp_all
    rw [hcl, agreedLen_of_not_agree hagree]
    simp
  | case2 c ct hyps heq =>
    have hagree : headAgree hyps = false := by
      by_contra hcon
      obtain ⟨t, ts, -, hnc⟩ :=
        nextCommit_of_headAgree (eq_true_of_ne_false hcon)
      rw [heq] at hnc
      simp at hnc
    have hcl : commitLoop c ct hyps = ⟨c, ct, hyps, false⟩ := by
      rw [commitLoop]
      split <;> simp_all
    rw [hcl, agreedLen_of_not_agree hagree]
    simp
  | case3 c ct hyps seg heq ih =>
    obtain ⟨hagree, ts, hn⟩ := headAgree_of_nextCommit heq
    have hk : agreedLen hyps = 1 + agreedLen (hyps.map (·.drop 1)) := by
      rw [agreedLen]
      simp [hagree]
    have hcl : commitLoop c ct hyps =
        commitLoop (c ++ [seg]) seg.endT (hyps.map (·.drop 1)) := by
      rw [commitLoop]
      split <;> simp_all
    have hlast' : (hyps.map (·.drop 1)).getLast?.getD [] = ts := by
      rw [List.getLast?_map, hn]
      rfl
    obtain ⟨ih1, ih2, ih3⟩ := ih
    refine ⟨?_, ?_, ?_⟩
    · rw [hcl, ih1, hlast', hk, hn]
      simp [Nat.add_comm 1, List.take_succ_cons]
    · rw [hcl, ih2, hk, List.map_map]
      refine List.map_congr_left fun l _ => ?_
      simp [List.drop_drop, Nat.add_comm]
    · rw [hcl, ih3, hlast', hk, hn]
      simp only [Option.getD_some, Nat.add_comm 1, List.take_succ_cons,
        List.map_cons, List.getLastD_cons]

/-- C5.  `append_transcription` drops the leading pre-committed segments of
the new hypothesis before admitting it, retains at most the newest
`local_agree_dim` hypotheses, and — once `d` hypotheses are present —
commits exactly the head run on which all `d` hypotheses agree
word-by-word: that run (taken from the newest hypothesis) is appended to
`committed`, popped from every retained hypothesis, and `committed_time`
becomes the end of the last committed segment.  The hypotheses
`1 ≤ localAgreeDim` and `inProgressSegments.length ≤ localAgreeDim` are the
constructor guarantee and the class invariant. -/
theorem C5_append_transcription (st : LocalAgree)
    (segments admitted : List TranscriptionSegment)
    (hyps : List (List TranscriptionSegment)) (k : ℕ)
    (hdim : 1 ≤ st.localAgreeDim)
    (hlen : st.inProgressSegments.length ≤ st.localAgreeDim)
    (ha : admitted =
      segments.dropWhile fun s => decide (s.start < st.commitedTime))
    (hh : hyps =
      (if st.localAgreeDim < (st.inProgressSegments ++ [admitted]).length
       then (st.inProgressSegments ++ [admitted]).drop 1
       else st.inProgressSegments ++ [admitted]))
    (hk : k = agreedLen hyps) :
    ((st.appendTranscription segments).1.inProgressSegments.length ≤
        st.localAgreeDim) ∧
    (hyps.length < st.localAgreeDim →
      (st.appendTranscription segments).1 =
        { st with inProgressSegments := hyps }) ∧
    (hyps.length = st.localAgreeDim →
      (st.appendTranscription segments).1.commitedSegments =
          st.commitedSegments ++ admitted.take k ∧
      (st.appendTranscription segments).1.inProgressSegments =
          hyps.map (·.drop k) ∧
      (st.appendTranscription segments).1.commitedTime =
          ((admitted.take k).map (·.endT)).getLastD st.commitedTime) := by
  subst ha hk
  have hyps_eq : ∀ (d : ℕ) (l : List (List TranscriptionSegment))
      (x : List TranscriptionSegment), l.length ≤ d →
      (if d < (l ++ [x]).length then (l ++ [x]).drop 1
       else l ++ [x]).length ≤ d := by
    intro d l x h
    split <;>
      simp only [List.length_drop, List.length_append, List.length_cons,
        List.length_nil] at * <;> omega
  have hyps_len : hyps.length ≤ st.localAgreeDim :=
    hh ▸ hyps_eq _ _ _ hlen
  by_cases hc : hyps.length < st.localAgreeDim
  · have happ : (st.appendTranscription segments).1 =
        { st with inProgressSegments := hyps } := by
      simp only [LocalAgree.appendTranscription, ← hh]
      rw [if_pos hc]
    refine ⟨?_, fun _ => happ, fun hceq => absurd hceq (by omega)⟩
    rw [happ]
    exact hyps_len
  · have hceq : hyps.length = st.localAgreeDim := by omega
    have hne : hyps ≠ [] := by
      intro hcon
      rw [hcon] at hceq
      simp at hceq
      omega
    have hlast_gen : ∀ (d : ℕ) (l : List (List TranscriptionSegment))
        (x : List TranscriptionSegment),
        (if d < (l ++ [x]).length then (l ++ [x]).drop 1 else l ++ [x]) ≠ [] →
        (if d < (l ++ [x]).length then (l ++ [x]).drop 1
          else l ++ [x]).getLast?.getD [] = x := by
      intro d l x hx
      by_cases hd : d < (l ++ [x]).length
      · rw [if_pos hd] at hx ⊢
        rcases l with _ | ⟨y, l'⟩
        · simp at hx
        · simp [List.getLast?_concat]
      · rw [if_neg hd] at hx ⊢
        simp [List.getLast?_concat]
    have hlast : hyps.getLast?.getD [] =
        segments.dropWhile fun s => decide (s.start < st.commitedTime) := by
      rw [hh]
      exact hlast_gen _ _ _ (by rw [← hh]; exact hne)
    have happ : (st.appendTranscription segments).1 =
        { st with
          commitedSegments :=
            (commitLoop st.commitedSegments st.commitedTime hyps).commited,
          commitedTime :=
            (commitLoop st.commitedSegments st.commitedTime hyps).commitedTime,
          inProgressSegments :=
            (commitLoop st.commitedSegments st.commitedTime hyps).hyps } := by
      simp only [LocalAgree.appendTranscription, ← hh]
      rw [if_neg (by omega)]
    obtain ⟨h1, h2, h3⟩ :=
      commitLoop_spec st.commitedSegments st.commitedTime hyps
    rw [hlast] at h1 h3
    refine ⟨?_, fun hcon => absurd hcon hc, fun _ => ⟨?_, ?_, ?_⟩⟩
    · rw [happ]
      simp only [h2, List.length_map]
      omega
    · rw [happ]
      exact h1
    · rw [happ]
      exact h2
    · rw [happ]
      exact h3

/-- Witness for `C5_append_transcription`: a dimension-2 instance receiving
its first hypothesis (the hypothesis is admitted unchanged and nothing is
committed yet). -/
theorem C5_append_transcription_witness :
    (1 ≤ (⟨2, [], [], 0⟩ : LocalAgree).localAgreeDim) ∧
    ((⟨2, [], [], 0⟩ : LocalAgree).inProgressSegments.length ≤ 2) ∧
    (((⟨2, [], [], 0⟩ : LocalAgree).appendTranscription
        [⟨"a", 0, 1⟩]).1.inProgressSegments.length ≤
      (⟨2, [], [], 0⟩ : LocalAgree).localAgreeDim) ∧
    (([[⟨"a", 0, 1⟩]] : List (List TranscriptionSegment)).length < 2 →
      ((⟨2, [], [], 0⟩ : LocalAgree).appendTranscription [⟨"a", 0, 1⟩]).1 =
        ⟨2, [], [[⟨"a", 0, 1⟩]], 0⟩) := by
  have h := C5_append_transcription ⟨2, [], [], 0⟩ [⟨"a", 0, 1⟩]
    [⟨"a", 0, 1⟩] [[⟨"a", 0, 1⟩]] (agreedLen [[⟨"a", 0, 1⟩]])
    (by decide) (by decide) (by decide) (by decide) rfl
  exact ⟨by decide, by decide, h.1, h.2.1⟩

/-! ## The EDF scheduler (C7) -/

lemma combineEdf_assoc (a b c : Option (ℕ × ℤ)) :
    combineEdf (combineEdf a b) c = combineEdf a (combineEdf b c) := by
  rcases a with _ | a <;> rcases b with _ | b <;> rcases c with _ | c <;>
    simp only [combineEdf] <;>
    split_ifs <;>
    first
      | rfl
      | (exfalso; omega)
      | (simp only [combineEdf]; split_ifs <;> first | rfl | (exfalso; omega))

lemma foldl_edfStep (l : List JobEntry) :
    ∀ acc, l.foldl edfStep acc = combineEdf acc (readyMin l) := by
  induction l with
  | nil => intro acc; cases acc <;> rfl
  | cons e rest ih =>
    intro acc
    rw [List.foldl_cons, ih]
    by_cases he : e.state = JState.READY
    · have hstep : edfStep acc e =
          combineEdf acc (some (e.jobId, e.deadline)) := by
        rcases acc with _ | ⟨j0, d0⟩ <;> simp [edfStep, combineEdf, he]
      have hhead : readyMin (e :: rest) =
          combineEdf (some (e.jobId, e.deadline)) (readyMin rest) := by
        rcases hr : readyMin rest with _ | ⟨j, d⟩
        · simp [readyMin, he, hr, combineEdf]
        · by_cases hc : e.deadline ≤ d
          · have h2 : ¬ d < e.deadline := not_lt.mpr hc
            simp [readyMin, he, hr, combineEdf, hc, h2]
          · have h2 : d < e.deadline := not_le.mp hc
            simp [readyMin, he, hr, combineEdf, hc, h2]
      rw [hstep, hhead, combineEdf_assoc]
    · have h1 : edfStep acc e = acc := by
        simp [edfStep, he]
      have h2 : readyMin (e :: rest) = readyMin rest := by
        simp [readyMin, he]
      rw [h1, h2]

lemma readyMin_none {l : List JobEntry} (h : readyMin l = none) :
    ∀ e ∈ l, e.state ≠ JState.READY := by
  induction l with
  | nil => simp
  | cons e rest ih =>
    intro x hx
    rcases List.mem_cons.mp hx with rfl | hx
    · intro hready
      rcases hr : readyMin rest with _ | ⟨j, d⟩
      · simp [readyMin, hready, hr] at h
      · by_cases hc : x.deadline ≤ d <;>
          simp [readyMin, hready, hr, hc] at h
    · by_cases he : e.state = JState.READY
      · rcases hr : readyMin rest with _ | ⟨j, d⟩
        · simp [readyMin, he, hr] at h
        · by_cases hc : e.deadline ≤ d <;>
            simp [readyMin, he, hr, hc] at h
      · simp only [readyMin, he] at h
        rw [if_neg (by simp [he])] at h
        exact ih h x hx

/-- `readyMin` returns the `READY` entry with minimal deadline, ties broken
in favour of the lowest `job_id`, provided job ids increase along the
list. -/
lemma readyMin_spec :
    ∀ l : List JobEntry, (l.Pairwise fun a b => a.jobId < b.jobId) →
      ∀ (j : ℕ) (d : ℤ), readyMin l = some (j, d) →
      ∃ e ∈ l, e.jobId = j ∧ e.deadline = d ∧ e.state = JState.READY ∧
        ∀ e' ∈ l, e'.state = JState.READY →
          d < e'.deadline ∨ (d = e'.deadline ∧ j ≤ e'.jobId) := by
  intro l
  induction l with
  | nil => intro _ j d h; simp [readyMin] at h
  | cons e rest ih =>
    intro hsort j d h
    have hsort_rest := (List.pairwise_cons.mp hsort).2
    have hsort_head := (List.pairwise_cons.mp hsort).1
    by_cases he : e.state = JState.READY
    · rcases hr : readyMin rest with _ | ⟨j', d'⟩
      · have hres : readyMin (e :: rest) = some (e.jobId, e.deadline) := by
          simp [readyMin, he, hr]
        rw [hres, Option.some.injEq, Prod.mk.injEq] at h
        obtain ⟨h1, h2⟩ := h
        refine ⟨e, by simp, h1, h2, he, ?_⟩
        intro e' he' hready
        rcases List.mem_cons.mp he' with rfl | he'
        · right; omega
        · exact absurd hready (readyMin_none hr e' he')
      · by_cases hle : e.deadline ≤ d'
        · have hres : readyMin (e :: rest) = some (e.jobId, e.deadline) := by
            simp [readyMin, he, hr, hle]
          rw [hres, Option.some.injEq, Prod.mk.injEq] at h
          obtain ⟨h1, h2⟩ := h
          obtain ⟨e'', he''mem, hid, hdl, hready'', hmin⟩ :=
            ih hsort_rest j' d' hr
          refine ⟨e, by simp, h1, h2, he, ?_⟩
          intro e' he' hready
          rcases List.mem_cons.mp he' with rfl | he'
          · right; omega
          · have := hmin e' he' hready
            have hjlt := hsort_head e' he'
            omega
        · have hres : readyMin (e :: rest) = some (j', d') := by
            simp [readyMin, he, hr, hle]
          rw [hres, Option.some.injEq, Prod.mk.injEq] at h
          obtain ⟨h1, h2⟩ := h
          obtain ⟨e'', he''mem, hid, hdl, hready'', hmin⟩ :=
            ih hsort_rest j' d' hr
          refine ⟨e'', List.mem_cons_of_mem _ he''mem, by omega, by omega,
            hready'', ?_⟩
          intro e' he' hready
          rcases List.mem_cons.mp he' with rfl | he'
          · left; omega
          · have := hmin e' he' hready
            omega
    · have h2 : readyMin (e :: rest) = readyMin rest := by
        simp [readyMin, he]
      rw [h2] at h
      obtain ⟨e'', he''mem, hid, hdl, hready'', hmin⟩ :=
        ih hsort_rest j d h
      refine ⟨e'', List.mem_cons_of_mem _ he''mem, hid, hdl, hready'', ?_⟩
      intro e' he' hready
      rcases List.mem_cons.mp he' with rfl | he'
      · exact absurd hready he
      · exact hmin e' he' hready



lemma markReady_pairwise {entries : List JobEntry} {now : ℤ}
    (hsort : entries.Pairwise fun a b => a.jobId < b.jobId) :
    (markReady now entries).Pairwise fun a b => a.jobId < b.jobId := by
  refine (List.pairwise_map).mpr (hsort.imp ?_)
  intro a b hab
  dsimp only
  split <;> split <;> simpa using hab

/-- C7.  In a scheduling pass, every `SLEEPING` entry whose
`period_start_ns` is before the current time is flipped to `READY`
(entry-by-entry description of the marking pass), and any entry the EDF
step selects is a `READY` entry whose deadline `period_start_ns +
period_ms · NS_PER_MS` is minimal among `READY` entries, with ties broken
in favour of the lowest `job_id`.  The hypothesis that job ids strictly
increase along the entry table reflects how the table is built: ids are
handed out by an increasing counter, so dict insertion order is id
order. -/
theorem C7_edf_scheduler (entries : List JobEntry) (now : ℤ)
    (hsort : entries.Pairwise fun a b => a.jobId < b.jobId) :
    (∀ i : ℕ, (markReady now entries)[i]? = entries[i]?.map fun e =>
      if e.state = JState.SLEEPING ∧ e.periodStartNs < now then
        { e with state := JState.READY }
      else e) ∧
    (∀ j, schedulerEdf (markReady now entries) = some j →
      ∃ e ∈ markReady now entries, e.jobId = j ∧
        e.state = JState.READY ∧
        ∀ e' ∈ markReady now entries, e'.state = JState.READY →
          e.deadline < e'.deadline ∨
            (e.deadline = e'.deadline ∧ e.jobId ≤ e'.jobId)) := by
  constructor
  · intro i
    simp [markReady]
  · intro j hj
    rw [schedulerEdf, foldl_edfStep] at hj
    simp only [combineEdf] at hj
    rcases hr : readyMin (markReady now entries) with _ | ⟨j', d⟩
    · rw [hr] at hj
      exact Option.noConfusion hj
    · rw [hr] at hj
      simp at hj
      obtain ⟨e, hmem, hid, hdl, hready, hmin⟩ :=
        readyMin_spec _ (markReady_pairwise hsort) _ _ hr
      subst hj
      refine ⟨e, hmem, hid, hready, ?_⟩
      intro e' he' hready'
      have := hmin e' he' hready'
      omega

/-- Witness for `C7_edf_scheduler`: two entries, the sleeping one is woken
and the ready one with the earlier deadline is picked. -/
theorem C7_edf_scheduler_witness :
    ([⟨1, JState.SLEEPING, 10, 5⟩, ⟨2, JState.READY, 1, 0⟩] :
        List JobEntry).Pairwise (fun a b => a.jobId < b.jobId) ∧
    (∀ i : ℕ,
      (markReady 6 [⟨1, JState.SLEEPING, 10, 5⟩, ⟨2, JState.READY, 1, 0⟩])[i]? =
      ([⟨1, JState.SLEEPING, 10, 5⟩, ⟨2, JState.READY, 1, 0⟩] :
          List JobEntry)[i]?.map fun e =>
        if e.state = JState.SLEEPING ∧ e.periodStartNs < 6 then
          { e with state := JState.READY }
        else e) ∧
    (∀ j, schedulerEdf (markReady 6
        [⟨1, JState.SLEEPING, 10, 5⟩, ⟨2, JState.READY, 1, 0⟩]) = some j →
      ∃ e ∈ markReady 6 [⟨1, JState.SLEEPING, 10, 5⟩,
          ⟨2, JState.READY, 1, 0⟩], e.jobId = j ∧
        e.state = JState.READY ∧
        ∀ e' ∈ markReady 6 [⟨1, JState.SLEEPING, 10, 5⟩,
            ⟨2, JState.READY, 1, 0⟩], e'.state = JState.READY →
          e.deadline < e'.deadline ∨
            (e.deadline = e'.deadline ∧ e.jobId ≤ e'.jobId)) := by
  have hsort : ([⟨1, JState.SLEEPING, 10, 5⟩, ⟨2, JState.READY, 1, 0⟩] :
      List JobEntry).Pairwise (fun a b => a.jobId < b.jobId) := by
    simp [List.pairwise_cons]
  have h := C7_edf_scheduler
    [⟨1, JState.SLEEPING, 10, 5⟩, ⟨2, JState.READY, 1, 0⟩] 6 hsort
  exact ⟨hsort, h.1, h.2⟩

/-! ## Rolling utilization (C10) -/

lemma bump_total (r : RollingUtilization) (s : WState) (n : ℤ) :
    (r.bump s n).totalTimeNs = r.totalTimeNs + n := by
  cases s <;> rfl

lemma bump_idle (r : RollingUtilization) (s : WState) (n : ℤ) :
    (r.bump s n).idleTimeNs =
      r.idleTimeNs + (if s = WState.IDLE then n else 0) := by
  cases s <;> simp [RollingUtilization.bump]

lemma bump_window (r : RollingUtilization) (s : WState) (n : ℤ) :
    (r.bump s n).rollingWindowNs = r.rollingWindowNs := by
  cases s <;> rfl

lemma sumNs_append (l : List (WState × ℤ)) (x : WState × ℤ) :
    sumNs (l ++ [x]) = sumNs l + x.2 := by
  simp [sumNs]

lemma sumStateNs_append (st : WState) (l : List (WState × ℤ))
    (x : WState × ℤ) :
    sumStateNs st (l ++ [x]) =
      sumStateNs st l + (if x.1 = st then x.2 else 0) := by
  by_cases hx : x.1 = st <;> simp [sumStateNs, hx]

lemma sumNs_cons (p : WState × ℤ) (l : List (WState × ℤ)) :
    sumNs (p :: l) = p.2 + sumNs l := by
  simp [sumNs]

lemma sumStateNs_cons (st : WState) (p : WState × ℤ)
    (l : List (WState × ℤ)) :
    sumStateNs st (p :: l) =
      (if p.1 = st then p.2 else 0) + sumStateNs st l := by
  by_cases hp : p.1 = st <;> simp [sumStateNs, hp]

lemma sumStateNs_le_sumNs (st : WState) (l : List (WState × ℤ))
    (h : ∀ p ∈ l, 0 ≤ p.2) :
    0 ≤ sumStateNs st l ∧ sumStateNs st l ≤ sumNs l := by
  induction l with
  | nil => simp [sumStateNs, sumNs]
  | cons p rest ih =>
    have hp := h p (by simp)
    obtain ⟨ih1, ih2⟩ := ih fun q hq => h q (List.mem_cons_of_mem _ hq)
    rw [sumStateNs_cons, sumNs_cons]
    constructor
    · split <;> omega
    · split <;> omega

/-- The eviction loop terminates successfully (the window is positive, so
it can never empty the deque) and leaves a well-formed state. -/
lemma evictLoop_ok :
    ∀ (l : List (WState × ℤ)) (r : RollingUtilization),
      0 < r.rollingWindowNs →
      r.totalTimeNs = sumNs l →
      r.idleTimeNs = sumStateNs WState.IDLE l →
      (∀ p ∈ l, 0 ≤ p.2) → l ≠ [] →
      ∃ r', evictLoop r l = .ok r' ∧ r'.WF ∧
        r'.rollingWindowNs = r.rollingWindowNs := by
  intro l
  induction l with
  | nil => intro r _ _ _ _ hne; exact absurd rfl hne
  | cons p rest ih =>
    intro r hw htot hidle hpos _
    rcases p with ⟨s, n⟩
    by_cases hstop : r.totalTimeNs - n < r.rollingWindowNs
    · refine ⟨{ r with increments := (s, n) :: rest }, ?_, ?_, rfl⟩
      · simp [evictLoop, hstop]
      · refine ⟨htot, hidle, hpos, ?_⟩
        intro hd tl hcons
        obtain ⟨h1, -⟩ := List.cons.injEq .. |>.mp hcons
        simpa [← h1] using hstop
    · have hrec : evictLoop r ((s, n) :: rest) =
          evictLoop (r.bump s (-n)) rest := by
        simp [evictLoop, hstop]
      have hrne : rest ≠ [] := by
        intro hcon
        rw [hcon] at htot
        rw [sumNs_cons] at htot
        simp [sumNs] at htot
        omega
      obtain ⟨r', hr', hwf, hwin⟩ := ih (r.bump s (-n))
        (by rw [bump_window]; exact hw)
        (by rw [bump_total, htot, sumNs_cons]; ring)
        (by
          rw [bump_idle, hidle, sumStateNs_cons]
          split <;> simp_all <;> ring)
        (fun q hq => hpos q (List.mem_cons_of_mem _ hq))
        hrne
      exact ⟨r', hrec ▸ hr', hwf, by rw [hwin, bump_window]⟩

/-- A single `increment` call with a non-negative duration succeeds from a
well-formed state and preserves well-formedness. -/
lemma increment_ok (r : RollingUtilization) (s : WState) (n : ℤ)
    (hwf : r.WF) (hw : 0 < r.rollingWindowNs) (hn : 0 ≤ n) :
    ∃ r', r.increment s n = .ok r' ∧ r'.WF ∧
      r'.rollingWindowNs = r.rollingWindowNs := by
  obtain ⟨htot, hidle, hpos, -⟩ := hwf
  obtain ⟨r', hr', hwf', hwin⟩ := evictLoop_ok
    (r.increments ++ [(s, n)]) (r.bump s n)
    (by rw [bump_window]; exact hw)
    (by rw [bump_total, htot, sumNs_append])
    (by
      rw [bump_idle, hidle, sumStateNs_append])
    (by
      intro q hq
      rcases List.mem_append.mp hq with hq | hq
      · exact hpos q hq
      · simp at hq
        subst hq
        exact hn)
    (by simp)
  exact ⟨r', hr', hwf', by rw [hwin, bump_window]⟩

/-- Utilization of a well-formed state lies in `[0, 1]`. -/
lemma utilization_bounds (r : RollingUtilization) (hwf : r.WF) :
    0 ≤ r.utilization ∧ r.utilization ≤ 1 := by
  obtain ⟨htot, hidle, hpos, -⟩ := hwf
  by_cases h0 : r.totalTimeNs = 0
  · simp [RollingUtilization.utilization, h0]
  · obtain ⟨hi0, hile⟩ := sumStateNs_le_sumNs WState.IDLE r.increments hpos
    rw [← htot] at hile
    rw [← hidle] at hi0 hile
    have htpos : 0 < r.totalTimeNs := by omega
    have htq : (0 : ℚ) < (r.totalTimeNs : ℚ) := by exact_mod_cast htpos
    have hiq : (0 : ℚ) ≤ (r.idleTimeNs : ℚ) := by exact_mod_cast hi0
    have hleq : (r.idleTimeNs : ℚ) ≤ (r.totalTimeNs : ℚ) := by
      exact_mod_cast hile
    have hdiv0 : 0 ≤ (r.idleTimeNs : ℚ) / (r.totalTimeNs : ℚ) :=
      div_nonneg hiq (le_of_lt htq)
    have hdiv1 : (r.idleTimeNs : ℚ) / (r.totalTimeNs : ℚ) ≤ 1 :=
      (div_le_one htq).mpr hleq
    simp only [RollingUtilization.utilization, if_neg h0]
    constructor <;> linarith

/-- A zero-length increment on a well-formed state succeeds and leaves the
utilization value unchanged. -/
lemma increment_zero (r : RollingUtilization) (s : WState)
    (hwf : r.WF) (hw : 0 < r.rollingWindowNs) :
    ∃ r', r.increment s 0 = .ok r' ∧ r'.utilization = r.utilization := by
  obtain ⟨htot, hidle, hpos, hwind⟩ := hwf
  rcases hi : r.increments with _ | ⟨⟨s0, n0⟩, rest⟩
  · rw [hi] at htot
    simp only [sumNs, List.map_nil, List.sum_nil] at htot
    refine ⟨{ r.bump s 0 with increments := [(s, 0)] }, ?_, ?_⟩
    · simp only [RollingUtilization.increment, hi, List.nil_append]
      simp [evictLoop, bump_total, bump_window, htot, hw]
    · simp [RollingUtilization.utilization, bump_total, bump_idle, htot]
  · have hcond : (r.bump s 0).totalTimeNs - n0 <
        (r.bump s 0).rollingWindowNs := by
      rw [bump_total, bump_window]
      have := hwind (s0, n0) rest hi
      omega
    refine ⟨{ r.bump s 0 with
        increments := (s0, n0) :: (rest ++ [(s, 0)]) }, ?_, ?_⟩
    · simp only [RollingUtilization.increment, hi, List.cons_append]
      simp [evictLoop, hcond]
    · simp [RollingUtilization.utilization, bump_total, bump_idle]

/-- Well-formedness and success of a whole sequence of `increment`
calls. -/
lemma incrementMany_ok :
    ∀ (ops : List (WState × ℤ)) (r : RollingUtilization), r.WF →
      0 < r.rollingWindowNs → (∀ p ∈ ops, 0 ≤ p.2) →
      ∃ r', incrementMany r ops = .ok r' ∧ r'.WF ∧
        0 < r'.rollingWindowNs := by
  intro ops
  induction ops with
  | nil => intro r hwf hw _; exact ⟨r, rfl, hwf, hw⟩
  | cons p rest ih =>
    intro r hwf hw hpos
    rcases p with ⟨s, n⟩
    obtain ⟨r₁, hr₁, hwf₁, hwin₁⟩ :=
      increment_ok r s n hwf hw (hpos (s, n) (by simp))
    obtain ⟨r', hr', hwf', hw'⟩ := ih r₁ hwf₁ (hwin₁ ▸ hw)
      fun q hq => hpos q (List.mem_cons_of_mem _ hq)
    refine ⟨r', ?_, hwf', hw'⟩
    simpa [incrementMany, hr₁] using hr'

/-- The freshly initialised accounting state is well-formed. -/
lemma init_wf (w : ℤ) : (RollingUtilization.init w).WF := by
  refine ⟨rfl, rfl, by simp [RollingUtilization.init], ?_⟩
  intro hd rest hcon
  simp [RollingUtilization.init] at hcon

/-- C10.  For every sequence of `increment(state, ns)` calls with `ns ≥ 0`
on a `_RollingUtilization` with a positive window: every call succeeds, the
utilization always lies in `[0, 1]`, it equals `0` when no time has been
recorded, and a further call with `ns = 0` leaves the utilization value
unchanged. -/
theorem C10_rolling_utilization (w : ℤ) (ops : List (WState × ℤ))
    (hw : 0 < w) (hops : ∀ p ∈ ops, 0 ≤ p.2) :
    (RollingUtilization.init w).utilization = 0 ∧
    ∃ r, incrementMany (RollingUtilization.init w) ops = .ok r ∧
      0 ≤ r.utilization ∧ r.utilization ≤ 1 ∧
      ∀ s, ∃ r', r.increment s 0 = .ok r' ∧
        r'.utilization = r.utilization := by
  refine ⟨by simp [RollingUtilization.init, RollingUtilization.utilization],
    ?_⟩
  obtain ⟨r, hr, hwf, hw'⟩ := incrementMany_ok ops
    (RollingUtilization.init w) (init_wf w) hw hops
  obtain ⟨h0, h1⟩ := utilization_bounds r hwf
  exact ⟨r, hr, h0, h1, fun s => increment_zero r s hwf hw'⟩

/-- Witness for `C10_rolling_utilization`: window 1, one 5 ns `IDLE`
increment. -/
theorem C10_rolling_utilization_witness :
    (0 : ℤ) < 1 ∧ (∀ p ∈ [(WState.IDLE, (5 : ℤ))], 0 ≤ p.2) ∧
    ((RollingUtilization.init 1).utilization = 0 ∧
      ∃ r, incrementMany (RollingUtilization.init 1)
          [(WState.IDLE, (5 : ℤ))] = .ok r ∧
        0 ≤ r.utilization ∧ r.utilization ≤ 1 ∧
        ∀ s, ∃ r', r.increment s 0 = .ok r' ∧
          r'.utilization = r.utilization) :=
  ⟨by decide, by decide,
    C10_rolling_utilization 1 [(WState.IDLE, (5 : ℤ))] (by decide)
      (by decide)⟩

/-! ## `destroy_unused` (C6) -/

/-- C6.  `destroy_unused` has no exception handling around
`destroy(log, instance)`: with two unused instances where destroying the
first raises, the exception propagates, the failing instance stays in the
table, and the second unused instance is neither destroyed nor removed —
contradicting the claim that a failure must not prevent the eviction of
the remaining unused instances.  The last conjunct shows the failure-free
run evicts everything. -/
theorem C6_destroy_unused :
    destroyUnused (fun k => k == 1) [] [(1, 10), (2, 20)] =
      ([(1, 10), (2, 20)], true) ∧
    (2, 20) ∈ (destroyUnused (fun k => k == 1) [] [(1, 10), (2, 20)]).1 ∧
    destroyUnused (fun k => k == 1) [] [(1, 10), (2, 20)] ≠ ([], true) ∧
    destroyUnused (fun _ => false) [] [(1, 10), (2, 20)] = ([], false) := by
  refine ⟨by decide, by decide, by decide, by decide⟩

/-! ## Tuple compatibility (C4) -/

/-- C4.  The guard `if other_id != context_ids:` in
`_context_ids_are_compatible` compares an int with the whole tuple and is
therefore always true, so an element's own tags are included in
`other_tags`.  For the tuple `(0, 1)` where context 0 carries its own
`negative_affinity` tag `"a"` and context 1 does not carry `"a"`, the
intended semantics (skip the self element) accepts the tuple while the
source rejects it; the single-element tuple `(0,)` shows the same
divergence. -/
theorem C4_compatibility :
    WorkerPool.contextIdsAreCompatible
      ⟨[⟨0, []⟩],
        [(0, ⟨["a", "x"], some "a", -1, 0⟩), (1, ⟨["y"], none, -1, 0⟩)]⟩
      [0, 1] = false ∧
    contextIdsAreCompatibleSpec
      ⟨[⟨0, []⟩],
        [(0, ⟨["a", "x"], some "a", -1, 0⟩), (1, ⟨["y"], none, -1, 0⟩)]⟩
      [0, 1] = true ∧
    WorkerPool.contextIdsAreCompatible
      ⟨[⟨0, []⟩], [(0, ⟨["a"], some "a", -1, 0⟩)]⟩ [0] = false ∧
    contextIdsAreCompatibleSpec
      ⟨[⟨0, []⟩], [(0, ⟨["a"], some "a", -1, 0⟩)]⟩ [0] = true := by
  refine ⟨by decide, by decide, by decide, by decide⟩

/-! ## `WorkerPool.register_job` (C1) -/

/-- C1.  `_assign_process` behaves as claimed — empty tags pick the
lowest-utilization worker, and a valid assignment is produced otherwise —
but the forwarding step always fails: `WorkerProcessManager.register_job`
tests its `context_id` argument (here the whole tuple of context ids, or
the empty tuple) for membership among the int keys of `context_def`, which
never holds for a tuple, so every forwarded registration raises
`KeyError("Invalid Context Id")` instead of returning a `JobHandle`.  A
plain int context id would pass the same check (last conjunct). -/
theorem C1_register_job :
    WorkerPool.assignProcess
      ⟨[⟨0, []⟩], [(0, ⟨["t"], none, -1, 0⟩)]⟩ [] = .ok (0, []) ∧
    WorkerPool.registerJob
      ⟨[⟨0, []⟩], [(0, ⟨["t"], none, -1, 0⟩)]⟩ [] = .error .keyError ∧
    WorkerPool.assignProcess
      ⟨[⟨0, []⟩], [(0, ⟨["t"], none, -1, 0⟩)]⟩ ["t"] = .ok (0, [0]) ∧
    WorkerPool.registerJob
      ⟨[⟨0, []⟩], [(0, ⟨["t"], none, -1, 0⟩)]⟩ ["t"] = .error .keyError ∧
    WorkerPool.registerJob
      ⟨[⟨0, []⟩], [(0, ⟨["t"], none, -1, 0⟩)]⟩ ["missing"] =
        .error .keyError ∧
    managerRegisterJob [(0, ⟨["t"], none, -1, 0⟩)] (.int 0) =
      .ok (.int 0) := by
  refine ⟨by decide, by decide, by decide, by decide, by decide, by decide⟩

/-! ## The streaming pipeline (C8) -/

lemma pyInt_ge {q : ℚ} {n : ℤ} (h : (n : ℚ) ≤ q) : n ≤ pyInt q := by
  unfold pyInt
  split
  · have h1 : n ≤ ⌊q⌋ := Int.le_floor.mpr h
    have h2 := Int.floor_le_ceil q
    omega
  · exact Int.le_floor.mpr h

lemma pyInt_le {q : ℚ} {m : ℤ} (h : q ≤ (m : ℚ)) : pyInt q ≤ m := by
  unfold pyInt
  split
  · exact Int.ceil_le.mpr h
  · have h1 : ⌈q⌉ ≤ m := Int.ceil_le.mpr h
    have h2 := Int.floor_le_ceil q
    omega

/-- Integer-amount version of `purge_ok_of_le`. -/
lemma purge_ok_int {buf : NPCircularBuffer} {a : ℤ}
    (h0 : 0 ≤ buf.currSize) (h1 : buf.currSize ≤ (buf.maxSize : ℤ))
    (h2 : 0 ≤ a) (h3 : a ≤ buf.currSize) :
    buf.purge a = .ok { buf with currSize := buf.currSize - a } := by
  have hmin : min (buf.maxSize : ℤ) a = a := by omega
  have hl : (sliceLen buf.maxSize (buf.currSize - a) : ℤ) =
      buf.currSize - a := sliceIdx_of_nonneg_le (by omega) (by omega)
  have ha : (sliceIdx buf.maxSize a : ℤ) = a :=
    sliceIdx_of_nonneg_le (by omega) (by omega)
  have hb : (sliceIdx buf.maxSize buf.currSize : ℤ) = buf.currSize :=
    sliceIdx_of_nonneg_le h0 h1
  have hr : sliceRangeLen buf.maxSize a buf.currSize =
      sliceLen buf.maxSize (buf.currSize - a) := by
    simp only [sliceRangeLen, sliceLen] at *
    omega
  simp only [NPCircularBuffer.purge, hmin, hr]
  simp

/-- `_decode_audio` leaves offset, `LocalAgree` and capacity unchanged,
keeps the buffer canonical and never shrinks it. -/
lemma decodeAudio_ok :
    ∀ (batch : List (Bool × ℕ)) (st st' : WhisperStreamingJob),
      decodeAudio st batch = .ok st' →
      0 ≤ st.buffer.currSize → st.buffer.currSize ≤ (st.buffer.maxSize : ℤ) →
      st'.maxBufferSamples = st.maxBufferSamples ∧
      st'.bufferOffsetSamples = st.bufferOffsetSamples ∧
      st'.localAgree = st.localAgree ∧
      st'.buffer.maxSize = st.buffer.maxSize ∧
      0 ≤ st'.buffer.currSize ∧
      st'.buffer.currSize ≤ (st'.buffer.maxSize : ℤ) ∧
      st.buffer.currSize ≤ st'.buffer.currSize := by
  intro batch
  induction batch with
  | nil =>
    intro st st' h h0 h1
    simp only [decodeAudio, Except.ok.injEq] at h
    subst h
    exact ⟨rfl, rfl, rfl, rfl, h0, h1, le_refl _⟩
  | cons p rest ih =>
    intro st st' h h0 h1
    rcases p with ⟨isSilent, n⟩
    cases isSilent
    · simp only [decodeAudio, Bool.false_eq_true, if_false] at h
      by_cases hex : 0 < (st.buffer.append n).2
      · rw [if_pos hex] at h
        exact Except.noConfusion h
      · rw [if_neg hex] at h
        obtain ⟨hb0, hb1, hb2, hb3⟩ :=
          @append_canonical st.buffer n h0 h1
        obtain ⟨g1, g2, g3, g4, g5, g6, g7⟩ := ih _ _ h hb0 hb1
        refine ⟨g1, g2, g3, by rw [g4]; exact hb3, g5, g6, ?_⟩
        exact le_trans hb2 g7
    · simp only [decodeAudio, if_true] at h
      exact ih _ _ h h0 h1

lemma forceFinalized_commited (la : LocalAgree) (e : ℚ) :
    (la.forceFinalized e).2.commitedSegments =
      la.commitedSegments.dropWhile fun s => decide (s.start < e) := by
  unfold LocalAgree.forceFinalized
  rcases la.inProgressSegments.getLast? with _ | newest <;> simp

lemma dropWhile_start_ge (e : ℚ) :
    ∀ l : List TranscriptionSegment,
      (l.Pairwise fun a b => a.start ≤ b.start) →
      ∀ s ∈ l.dropWhile fun s => decide (s.start < e), e ≤ s.start := by
  intro l
  induction l with
  | nil => simp
  | cons a rest ih =>
    intro hp s hs
    have hhead := (List.pairwise_cons.mp hp).1
    have htail := (List.pairwise_cons.mp hp).2
    by_cases ha : a.start < e
    · rw [List.dropWhile_cons_of_pos (by simpa using ha)] at hs
      exact ih htail s hs
    · rw [List.dropWhile_cons_of_neg (by simpa using ha)] at hs
      rcases List.mem_cons.mp hs with rfl | hs
      · exact le_of_not_lt ha
      · have h2 := hhead s hs
        have h3 := le_of_not_lt ha
        linarith

/-- The forced-finalization step succeeds from a canonical state, advances
the offset without changing `offset + len`, trims the buffer, and keeps
every committed segment's end inside the admitted window. -/
lemma forcedFinalization_ok (st : WhisperStreamingJob)
    (h0 : 0 ≤ st.buffer.currSize)
    (h1 : st.buffer.currSize ≤ (st.buffer.maxSize : ℤ))
    (hcom : ∀ s ∈ st.localAgree.commitedSegments,
      segWindowOK st.bufferOffsetSamples st.buffer.currSize s)
    (hsorted : st.localAgree.commitedSegments.Pairwise
      fun a b => a.start ≤ b.start) :
    ∃ ff st₂, forcedFinalization st = .ok (ff, st₂) ∧
      st₂.maxBufferSamples = st.maxBufferSamples ∧
      st₂.buffer.maxSize = st.buffer.maxSize ∧
      0 ≤ st₂.buffer.currSize ∧
      st₂.buffer.currSize ≤ (st₂.buffer.maxSize : ℤ) ∧
      st.bufferOffsetSamples ≤ st₂.bufferOffsetSamples ∧
      st₂.bufferOffsetSamples + st₂.buffer.currSize =
        st.bufferOffsetSamples + st.buffer.currSize ∧
      ∀ s ∈ st₂.localAgree.commitedSegments,
        segWindowOK st₂.bufferOffsetSamples st₂.buffer.currSize s := by
  by_cases hf : (st.maxBufferSamples : ℤ) < st.buffer.currSize
  · have hstp0 : (0 : ℤ) ≤ st.buffer.currSize - st.maxBufferSamples := by
      omega
    have hstp1 : st.buffer.currSize - st.maxBufferSamples ≤
        st.buffer.currSize := by
      omega
    have hpurge := @purge_ok_int st.buffer
      (st.buffer.currSize - st.maxBufferSamples) h0 h1 hstp0 hstp1
    set e : ℚ :=
      ((st.bufferOffsetSamples +
        (st.buffer.currSize - st.maxBufferSamples) : ℤ) : ℚ) /
        (SAMPLE_RATE : ℚ) with he
    refine ⟨(st.localAgree.forceFinalized e).1,
      { st with
        buffer := { st.buffer with
          currSize := st.buffer.currSize -
            (st.buffer.currSize - st.maxBufferSamples) },
        bufferOffsetSamples := st.bufferOffsetSamples +
          (st.buffer.currSize - st.maxBufferSamples),
        localAgree := (st.localAgree.forceFinalized e).2 }, ?_,
      rfl, rfl,
      (by
        show (0 : ℤ) ≤ st.buffer.currSize -
          (st.buffer.currSize - st.maxBufferSamples)
        omega),
      (by
        show st.buffer.currSize - (st.buffer.currSize - st.maxBufferSamples)
          ≤ (st.buffer.maxSize : ℤ)
        omega),
      (by
        show st.bufferOffsetSamples ≤ st.bufferOffsetSamples +
          (st.buffer.currSize - st.maxBufferSamples)
        omega),
      (by
        show st.bufferOffsetSamples +
            (st.buffer.currSize - st.maxBufferSamples) +
            (st.buffer.currSize -
              (st.buffer.currSize - st.maxBufferSamples)) =
          st.bufferOffsetSamples + st.buffer.currSize
        ring), ?_⟩
    · simp only [forcedFinalization, if_pos hf, hpurge]
      rfl
    · intro s hs
      simp only [forceFinalized_commited] at hs
      have hmem : s ∈ st.localAgree.commitedSegments :=
        (List.dropWhile_sublist _).subset hs
      obtain ⟨hse, hlo, hhi⟩ := hcom s hmem
      have hge : e ≤ s.start :=
        dropWhile_start_ge e st.localAgree.commitedSegments hsorted s hs
      have hSR : (0 : ℚ) < (SAMPLE_RATE : ℚ) := by
        norm_num [SAMPLE_RATE]
      have hmul : ((st.bufferOffsetSamples +
          (st.buffer.currSize - st.maxBufferSamples) : ℤ) : ℚ) ≤
          s.endT * (SAMPLE_RATE : ℚ) := by
        rw [he] at hge
        have : ((st.bufferOffsetSamples +
            (st.buffer.currSize - st.maxBufferSamples) : ℤ) : ℚ) ≤
            s.start * (SAMPLE_RATE : ℚ) := by
          have := (div_le_iff₀ hSR).mp hge
          linarith
        have hmono : s.start * (SAMPLE_RATE : ℚ) ≤
            s.endT * (SAMPLE_RATE : ℚ) := by
          have := mul_le_mul_of_nonneg_right hse (le_of_lt hSR)
          linarith
        linarith
      refine ⟨hse, ?_, ?_⟩
      · simpa using pyInt_ge hmul
      · simp only []
        have : pyInt (s.endT * (SAMPLE_RATE : ℚ)) ≤
            st.bufferOffsetSamples + st.buffer.currSize := hhi
        omega
  · refine ⟨none, st, ?_, rfl, rfl, h0, h1, le_refl _, rfl, hcom⟩
    simp [forcedFinalization, hf]

/-- Every segment committed by `append_transcription` was already
committed or belongs to the appended hypothesis. -/
lemma appendTranscription_commited_subset (st : LocalAgree)
    (segs : List TranscriptionSegment) :
    ∀ x ∈ (st.appendTranscription segs).1.commitedSegments,
      x ∈ st.commitedSegments ∨ x ∈ segs := by
  have key : ∀ hyps : List (List TranscriptionSegment),
      (hyps.getLast?.getD [] =
          (segs.dropWhile fun s => decide (s.start < st.commitedTime)) ∨
        hyps.getLast?.getD [] = []) →
      ∀ y ∈ (commitLoop st.commitedSegments st.commitedTime hyps).commited,
        y ∈ st.commitedSegments ∨ y ∈ segs := by
    intro hyps hl y hy
    rw [(commitLoop_spec st.commitedSegments st.commitedTime hyps).1] at hy
    rcases List.mem_append.mp hy with hy | hy
    · exact Or.inl hy
    · have hy' := List.mem_of_mem_take hy
      rcases hl with hl | hl
      · rw [hl] at hy'
        exact Or.inr ((List.dropWhile_sublist _).subset hy')
      · rw [hl] at hy'
        simp at hy'
  intro x hx
  simp only [LocalAgree.appendTranscription] at hx
  split at hx
  · split at hx
    · exact Or.inl hx
    · refine key _ ?_ x hx
      rcases hi : st.inProgressSegments with _ | ⟨z, l'⟩
      · right; simp
      · left; simp [List.getLast?_concat]
  · split at hx
    · exact Or.inl hx
    · refine key _ ?_ x hx
      left
      simp [List.getLast?_concat]

/-- When `pop_finalized` returns a sequence, its last end timestamp is the
end of some (already) committed segment, and `ends` is non-empty. -/
lemma popFinalized_some (st : LocalAgree) (f : TranscriptionSequence)
    (h : (st.popFinalized).1 = some f) :
    f.ends ≠ [] ∧
    ∃ seg ∈ st.commitedSegments, f.ends.getLastD 0 = seg.endT := by
  have hcol := collectFinalized_eq st.commitedSegments [] []
    (by intro s hs; simp at hs)
  simp only [List.nil_append] at hcol
  simp only [LocalAgree.popFinalized, hcol] at h
  rcases Nat.eq_zero_or_pos (lastRunLen st.commitedSegments) with hr | hr
  · rw [hr] at h
    simp at h
  · have hne : ¬ lastRunLen st.commitedSegments = 0 := by omega
    rw [if_neg hne] at h
    have hlen : (st.commitedSegments.take
        (lastRunLen st.commitedSegments)).length =
        lastRunLen st.commitedSegments := by
      have := lastRunLen_le st.commitedSegments
      simp [List.length_take]
      omega
    have htake_ne : (st.commitedSegments.take
        (lastRunLen st.commitedSegments)).isEmpty = false := by
      rw [List.isEmpty_eq_false_iff_exists_mem]
      have : 0 < (st.commitedSegments.take
          (lastRunLen st.commitedSegments)).length := by omega
      exact List.exists_mem_of_length_pos this
    rw [htake_ne] at h
    simp only [Bool.false_eq_true, if_false, Option.some.injEq] at h
    subst h
    have hlistne : st.commitedSegments.take
        (lastRunLen st.commitedSegments) ≠ [] := by
      intro hcon
      rw [hcon] at hlen
      simp at hlen
      omega
    rcases hlast : (st.commitedSegments.take
        (lastRunLen st.commitedSegments)).getLast? with _ | seg
    · exact absurd (List.getLast?_eq_none_iff.mp hlast) hlistne
    · have hsegmem : seg ∈ st.commitedSegments :=
        List.mem_of_mem_take (List.mem_of_mem_getLast? hlast)
      refine ⟨?_, seg, hsegmem, ?_⟩
      · simp only [segmentsToSequence]
        intro hcon
        exact hlistne (List.map_eq_nil_iff.mp hcon)
      · simp only [segmentsToSequence, List.getLastD_eq_getLast?,
          List.getLast?_map, hlast]
        rfl

lemma except_bind_ok {α β : Type} (a : α) (k : α → Except Unit β) :
    ((Except.ok a : Except Unit α) >>= k) = k a := rfl

/-- The stabilization tail keeps the buffer length within the capacity and
never moves the offset backwards, provided every committed segment and
every oracle segment ends inside the admitted window. -/
lemma stabilizeBatch_ok (ff : Option TranscriptionSequence)
    (st : WhisperStreamingJob) (o : List TranscriptionSegment)
    (h0 : 0 ≤ st.buffer.currSize)
    (h1 : st.buffer.currSize ≤ (st.buffer.maxSize : ℤ))
    (hcom : ∀ s ∈ st.localAgree.commitedSegments,
      segWindowOK st.bufferOffsetSamples st.buffer.currSize s)
    (horacle : ∀ s ∈ o,
      segWindowOK st.bufferOffsetSamples st.buffer.currSize s) :
    ∀ st' ip fin, stabilizeBatch ff st o = .ok (st', ip, fin) →
      0 ≤ st'.buffer.currSize ∧
      st'.buffer.currSize ≤ (st'.buffer.maxSize : ℤ) ∧
      st'.buffer.maxSize = st.buffer.maxSize ∧
      st'.maxBufferSamples = st.maxBufferSamples ∧
      st.bufferOffsetSamples ≤ st'.bufferOffsetSamples := by
  intro st' ip fin h
  simp only [stabilizeBatch] at h
  set segments :=
    (if sliceLen st.buffer.maxSize st.buffer.currSize = 0 then
      ([] : List TranscriptionSegment)
    else o) with hsegs
  have hsegsub : ∀ s ∈ segments,
      segWindowOK st.bufferOffsetSamples st.buffer.currSize s := by
    rw [hsegs]
    split
    · simp
    · exact horacle
  by_cases hemp : segments.isEmpty
  · rw [if_pos hemp] at h
    rw [Except.ok.injEq, Prod.mk.injEq] at h
    obtain ⟨hst, -⟩ := h
    subst hst
    exact ⟨h0, h1, rfl, rfl, le_refl _⟩
  · rw [if_neg hemp] at h
    set ap := st.localAgree.appendTranscription segments with hap'
    by_cases hap : ap.2
    · rw [if_pos hap] at h
      exact Except.noConfusion h
    · rw [if_neg hap] at h
      rcases hip : (ap.1.popFinalized).2.getInProgress with e | ip₀
      · rw [hip] at h
        exact Except.noConfusion h
      · rw [hip, except_bind_ok] at h
        rcases hfin : (ap.1.popFinalized).1 with _ | f
        · rw [hfin] at h
          simp only [] at h
          rcases ff with _ | ffv <;>
            · simp only [Except.ok.injEq, Prod.mk.injEq] at h
              obtain ⟨hst, -⟩ := h
              subst hst
              exact ⟨h0, h1, rfl, rfl, le_refl _⟩
        · rw [hfin] at h
          simp only [] at h
          obtain ⟨hne, seg, hsegmem, hlastT⟩ := popFinalized_some ap.1 f hfin
          have hseg' : segWindowOK st.bufferOffsetSamples
              st.buffer.currSize seg := by
            rcases appendTranscription_commited_subset st.localAgree
                segments seg hsegmem with hm | hm
            · exact hcom seg hm
            · exact hsegsub seg hm
          obtain ⟨-, hlo, hhi⟩ := hseg'
          by_cases hfe : f.ends.isEmpty
          · rw [if_pos hfe, except_bind_ok] at h
            rcases ff with _ | ffv <;>
              · simp only [Except.ok.injEq, Prod.mk.injEq] at h
                obtain ⟨hst, -⟩ := h
                subst hst
                exact ⟨h0, h1, rfl, rfl, le_refl _⟩
          · rw [if_neg hfe] at h
            rw [hlastT] at h
            have hstp0 : 0 ≤ pyInt (seg.endT * (SAMPLE_RATE : ℚ)) -
                st.bufferOffsetSamples := by omega
            have hstp1 : pyInt (seg.endT * (SAMPLE_RATE : ℚ)) -
                st.bufferOffsetSamples ≤ st.buffer.currSize := by omega
            have hpurge := @purge_ok_int st.buffer _ h0 h1 hstp0 hstp1
            rw [hpurge, except_bind_ok, except_bind_ok] at h
            rcases ff with _ | ffv <;>
              · simp only [Except.ok.injEq, Prod.mk.injEq] at h
                obtain ⟨hst, -⟩ := h
                subst hst
                refine ⟨by simp; omega, by simp; omega, rfl, rfl,
                  by simp; omega⟩

/-- C8.  For every completed invocation of `process_batch`, on return the
buffer length satisfies `buffer.len() ≤ 2 × max_buffer_samples` and
`offset_samples` is not smaller than at entry.  The hypotheses are the
constructor relation `capacity = 2 × max_buffer_samples`, the buffer
data-model invariant `0 ≤ len ≤ capacity`, the committed-timeline
invariants of the spec's data model (committed segment ends truncate into
the admitted window `[offset, offset + len]` and starts are
non-decreasing), and the §6 decoder contract that the transcribed word
segments end inside the window that was transcribed. -/
theorem C8_process_batch (st : WhisperStreamingJob)
    (batch : List (Bool × ℕ)) (oracleSegments : List TranscriptionSegment)
    (hmax : st.buffer.maxSize = 2 * st.maxBufferSamples)
    (h0 : 0 ≤ st.buffer.currSize)
    (h1 : st.buffer.currSize ≤ (st.buffer.maxSize : ℤ))
    (hcom : ∀ s ∈ st.localAgree.commitedSegments,
      segWindowOK st.bufferOffsetSamples st.buffer.currSize s)
    (hsorted : st.localAgree.commitedSegments.Pairwise
      fun a b => a.start ≤ b.start)
    (horacle : ∀ st₁ fs, decodeAudio st batch = .ok st₁ →
      forcedFinalization st₁ = .ok fs →
      ∀ s ∈ oracleSegments,
        segWindowOK fs.2.bufferOffsetSamples fs.2.buffer.currSize s) :
    ∀ st' ip fin, processBatch st batch oracleSegments = .ok (st', ip, fin) →
      st'.buffer.currSize ≤ 2 * (st'.maxBufferSamples : ℤ) ∧
      st.bufferOffsetSamples ≤ st'.bufferOffsetSamples := by
  intro st' ip fin hrun
  simp only [processBatch] at hrun
  rcases hdec : decodeAudio st batch with e | st₁
  · rw [hdec] at hrun
    exact Except.noConfusion hrun
  · rw [hdec, except_bind_ok] at hrun
    obtain ⟨d1, d2, d3, d4, d5, d6, d7⟩ := decodeAudio_ok batch st st₁
      hdec h0 h1
    have hcom₁ : ∀ s ∈ st₁.localAgree.commitedSegments,
        segWindowOK st₁.bufferOffsetSamples st₁.buffer.currSize s := by
      rw [d3, d2]
      intro s hs
      obtain ⟨ha, hb, hc⟩ := hcom s hs
      exact ⟨ha, hb, by omega⟩
    have hsorted₁ : st₁.localAgree.commitedSegments.Pairwise
        (fun a b => a.start ≤ b.start) := by
      rw [d3]
      exact hsorted
    obtain ⟨ffv, st₂, hfor, f1, f2, f3, f4, f5, f6, f7⟩ :=
      forcedFinalization_ok st₁ d5 d6 hcom₁ hsorted₁
    rw [hfor, except_bind_ok] at hrun
    simp only [] at hrun
    have horacle₂ : ∀ s ∈ oracleSegments,
        segWindowOK st₂.bufferOffsetSamples st₂.buffer.currSize s :=
      horacle st₁ (ffv, st₂) hdec hfor
    obtain ⟨g1, g2, g3, g4, g5⟩ := stabilizeBatch_ok ffv st₂
      oracleSegments f3 f4 f7 horacle₂ st' ip fin hrun
    constructor
    · have hms : st'.buffer.maxSize = 2 * st'.maxBufferSamples := by
        rw [g3, f2, d4, hmax, g4, f1, d1]
      have := g2
      rw [hms] at this
      push_cast at this
      omega
    · omega

/-- Witness for `C8_process_batch`: a fresh dimension-1 job with
capacity 4 and `max_buffer_samples = 2`, empty batch and empty
transcription. -/
theorem C8_process_batch_witness :
    ((⟨2, ⟨0, 4⟩, 0, ⟨1, [], [], 0⟩, ""⟩ :
        WhisperStreamingJob).buffer.maxSize =
      2 * (⟨2, ⟨0, 4⟩, 0, ⟨1, [], [], 0⟩, ""⟩ :
        WhisperStreamingJob).maxBufferSamples) ∧
    (∀ s ∈ (⟨2, ⟨0, 4⟩, 0, ⟨1, [], [], 0⟩, ""⟩ :
        WhisperStreamingJob).localAgree.commitedSegments,
      segWindowOK 0 0 s) ∧
    (∀ st' ip fin,
      processBatch ⟨2, ⟨0, 4⟩, 0, ⟨1, [], [], 0⟩, ""⟩ [] [] =
        .ok (st', ip, fin) →
      st'.buffer.currSize ≤ 2 * (st'.maxBufferSamples : ℤ) ∧
      (⟨2, ⟨0, 4⟩, 0, ⟨1, [], [], 0⟩, ""⟩ :
        WhisperStreamingJob).bufferOffsetSamples ≤
          st'.bufferOffsetSamples) := by
  refine ⟨by decide, by simp, ?_⟩
  exact C8_process_batch ⟨2, ⟨0, 4⟩, 0, ⟨1, [], [], 0⟩, ""⟩ [] []
    (by decide) (by decide) (by decide) (by simp) (by simp)
    (by intro st₁ fs _ _ s hs; simp at hs)

end Scribear
